import Mathlib

/-
Shallow embedding of the slotted B-tree leaf node page engine from
push-and-pray/e-bin (src/btree/mod.rs, header.rs, key.rs, freeblock.rs).

A page is a 4096-byte buffer, encoded as a natural number in base 256
(digit i = byte at offset i), so page equality is byte-identity.  Values
and the byte sequences read out of the page are lists of naturals below
256.  All on-page integers are little-endian.  The header layout follows the repr(C) Rust
struct in header.rs: node_type at 0 (u8), num_keys at 1 (u16), free_start
at 3 (u16), free_end at 5 (u16), first_freeblock at 7 (u16),
fragmented_bytes at 9 (u8), rightmost_child_page at 10 (u32), so
HEADER_SIZE = 14 (size_of of the packed struct; confirmed by the repo's
own test_freespace_tracking arithmetic).  A key slot (key.rs) is 16 bytes:
key u64 at +0, left_child_page u32 at +8, value_offset u16 at +12,
value_len u16 at +14.  A freeblock (freeblock.rs) is 4 bytes:
next_freeblock u16 at +0, size u16 at +2.

Loops in the source (the freeblock-chain walks and the binary search) are
unbounded while-loops; they are embedded with explicit fuel.  The fuel is
large enough that, under the chain invariants used in the theorems below
(strictly ascending offsets inside the page), the embedded function takes
exactly the same steps as the source.
-/

set_option maxRecDepth 100000

namespace EBin

/-- A page is a 4096-byte buffer, encoded as a natural number in base 256:
digit i of the encoding is the byte at offset i.  The encoding is unique,
so equality of pages is byte-identity of the buffers. -/
abbrev Page := Nat

def PAGE_SIZE : Nat := 4096
def HEADER_SIZE : Nat := 14
def KEY_SIZE : Nat := 16
def FREEBLOCK_SIZE : Nat := 4

/-- The weight of the byte at offset i, written with a shift so that it
evaluates fast. -/
def pow256 (i : Nat) : Nat := 1 <<< (8 * i)

/-- Read the byte at offset i. -/
def byteAt (p : Page) (i : Nat) : Nat := p / pow256 i % 256

/-- Write one byte at offset i (stores modulo 256, the u8 store of the
source). -/
def setByte (p : Page) (i x : Nat) : Page :=
  p % pow256 i + x % 256 * pow256 i + p / pow256 (i + 1) * pow256 (i + 1)

/-- Read a little-endian u16 at the given offset. -/
def readU16 (p : Page) (off : Nat) : Nat :=
  byteAt p off + 256 * byteAt p (off + 1)

/-- Write a little-endian u16 at the given offset. -/
def writeU16 (p : Page) (off x : Nat) : Page :=
  setByte (setByte p off (x % 256)) (off + 1) (x / 256 % 256)

/-- Read a little-endian u64 at the given offset. -/
def readU64 (p : Page) (off : Nat) : Nat :=
  byteAt p off +
    256 * (byteAt p (off + 1) +
      256 * (byteAt p (off + 2) +
        256 * (byteAt p (off + 3) +
          256 * (byteAt p (off + 4) +
            256 * (byteAt p (off + 5) +
              256 * (byteAt p (off + 6) +
                256 * byteAt p (off + 7)))))))

/-- Little-endian bytes of a u16. -/
def u16Bytes (x : Nat) : List Nat := [x % 256, x / 256 % 256]

/-- Little-endian bytes of a u32. -/
def u32Bytes (x : Nat) : List Nat :=
  [x % 256, x / 256 % 256, x / 256 ^ 2 % 256, x / 256 ^ 3 % 256]

/-- Little-endian bytes of a u64. -/
def u64Bytes (x : Nat) : List Nat :=
  [x % 256, x / 256 % 256, x / 256 ^ 2 % 256, x / 256 ^ 3 % 256,
   x / 256 ^ 4 % 256, x / 256 ^ 5 % 256, x / 256 ^ 6 % 256, x / 256 ^ 7 % 256]

/-- Read len bytes starting at off. -/
def readBytes (p : Page) (off len : Nat) : List Nat :=
  (List.range len).map fun j => byteAt p (off + j)

/-- Write a sequence of bytes starting at off. -/
def writeBytes (p : Page) (off : Nat) : List Nat → Page
  | [] => p
  | b :: t => writeBytes (setByte p off b) (off + 1) t

/-- Memmove of the byte range from src up to srcEnd to dst
(slice::copy_within semantics: the source bytes are read before any write). -/
def copyWithin (p : Page) (src srcEnd dst : Nat) : Page :=
  writeBytes p dst (readBytes p src (srcEnd - src))

/-! Header accessors (field offsets per the repr(C) layout). -/

def numKeys (p : Page) : Nat := readU16 p 1
def freeStart (p : Page) : Nat := readU16 p 3
def freeEnd (p : Page) : Nat := readU16 p 5
def firstFreeblock (p : Page) : Nat := readU16 p 7
def fragmentedBytes (p : Page) : Nat := byteAt p 9

def setNumKeys (p : Page) (x : Nat) : Page := writeU16 p 1 x
def setFreeStart (p : Page) (x : Nat) : Page := writeU16 p 3 x
def setFreeEnd (p : Page) (x : Nat) : Page := writeU16 p 5 x
def setFirstFreeblock (p : Page) (x : Nat) : Page := writeU16 p 7 x
def setFragmentedBytes (p : Page) (x : Nat) : Page := setByte p 9 x

/-- Node::new on a zeroed buffer: initialise the header as an empty leaf. -/
def newPage : Page :=
  let p0 : Page := 0
  let p1 := setByte p0 0 1
  let p2 := setNumKeys p1 0
  let p3 := setFreeStart p2 HEADER_SIZE
  let p4 := setFreeEnd p3 PAGE_SIZE
  let p5 := setFirstFreeblock p4 0
  let p6 := setFragmentedBytes p5 0
  let p7 := writeBytes p6 10 (u32Bytes 0)
  p7

/-! Slot accessors (key.rs). -/

def getKeyPos (idx : Nat) : Nat := HEADER_SIZE + KEY_SIZE * idx
def keyAt (p : Page) (idx : Nat) : Nat := readU64 p (getKeyPos idx)
def valueOffsetAt (p : Page) (idx : Nat) : Nat := readU16 p (getKeyPos idx + 12)
def valueLenAt (p : Page) (idx : Nat) : Nat := readU16 p (getKeyPos idx + 14)

/-- Serialisation of a key slot (Key::new + IntoBytes). -/
def slotBytes (key lcp voff vlen : Nat) : List Nat :=
  u64Bytes key ++ u32Bytes lcp ++ u16Bytes voff ++ u16Bytes vlen

/-- Node::unallocated_space. -/
def unallocated_space (p : Page) : Nat := freeEnd p - freeStart p

/-- Freeblock-chain part of Node::free_space, with fuel for the while loop. -/
def freeSpaceChain (p : Page) : Nat → Nat → Nat
  | _, 0 => 0
  | off, fuel + 1 =>
    if off = 0 then 0
    else readU16 p (off + 2) + freeSpaceChain p (readU16 p off) fuel

/-- Node::free_space. -/
def free_space (p : Page) : Nat :=
  unallocated_space p + fragmentedBytes p +
    freeSpaceChain p (firstFreeblock p) PAGE_SIZE

/-- Binary-search loop of Node::find_le_key_idx, with fuel. -/
def findLoop (p : Page) (key : Nat) : Nat → Nat → Nat → Nat × Bool
  | low, _, 0 => (low, false)
  | low, high, fuel + 1 =>
    if low < high then
      let mid := (low + high) / 2
      let ck := keyAt p mid
      if ck = key then (mid, true)
      else if ck < key then findLoop p key (mid + 1) high fuel
      else findLoop p key low mid fuel
    else (low, false)

/-- Node::find_le_key_idx. -/
def find_le_key_idx (p : Page) (key : Nat) : Nat × Bool :=
  let n := numKeys p
  if n = 0 then (0, false) else findLoop p key 0 n (n + 1)

/-- Node::insert_key_at as invoked from mod.rs: shift the slots from idx on
right by one slot, write the new slot, bump free_start and num_keys. -/
def insert_key_at (p : Page) (idx key lcp voff vlen : Nat) : Page :=
  let keysEnd := freeStart p
  let pos := getKeyPos idx
  let p1 := copyWithin p pos keysEnd (pos + KEY_SIZE)
  let p2 := writeBytes p1 pos (slotBytes key lcp voff vlen)
  let p3 := setFreeStart p2 (freeStart p2 + KEY_SIZE)
  let p4 := setNumKeys p3 (numKeys p3 + 1)
  p4

/-- Node::pop_key_at: read the slot out, shift the following slots left,
decrement free_start and num_keys.  Returns (key, value_offset, value_len)
of the removed slot, which is all mod.rs uses of the popped Key. -/
def pop_key_at (p : Page) (idx : Nat) : (Nat × Nat × Nat) × Page :=
  let pos := getKeyPos idx
  let k := keyAt p idx
  let voff := valueOffsetAt p idx
  let vlen := valueLenAt p idx
  let keysEnd := freeStart p
  let p1 := copyWithin p (pos + KEY_SIZE) keysEnd pos
  let p2 := setFreeStart p1 (freeStart p1 - KEY_SIZE)
  let p3 := setNumKeys p2 (numKeys p2 - 1)
  ((k, voff, vlen), p3)

/-- Node::write_freeblock with the argument convention of its call sites in
mod.rs: write next_freeblock and size at the given offset. -/
def write_freeblock (p : Page) (off next size : Nat) : Page :=
  writeU16 (writeU16 p off next) (off + 2) size

structure KeyValuePair where
  key : Nat
  value : List Nat
  deriving DecidableEq, Repr

/-- Node::get. -/
def get (p : Page) (key : Nat) : Option (List Nat) :=
  let r := find_le_key_idx p key
  if r.2 then
    some (readBytes p (valueOffsetAt p r.1) (valueLenAt p r.1))
  else none

/-- Slot-rewrite pass of Node::defrag: point each slot at its packed
position. -/
def defragRewrite (p : Page) : List (Nat × Nat × Nat) → Nat → Page
  | [], _ => p
  | (i, _, len) :: rest, pos =>
    defragRewrite (writeU16 p (getKeyPos i + 12) pos) rest (pos + len)

/-- Node::defrag: repack all live values against the end of the page,
rewrite the slots, and clear the freeblock chain and fragmentation. -/
def defrag (p : Page) : Page :=
  let n := numKeys p
  let infos := (List.range n).map fun i => (i, valueOffsetAt p i, valueLenAt p i)
  let totalUsed := (infos.map fun x => x.2.2).sum
  let buffer := infos.flatMap fun x => readBytes p x.2.1 x.2.2
  let newFreeEnd := PAGE_SIZE - totalUsed
  let p1 := writeBytes p newFreeEnd buffer
  let p2 := defragRewrite p1 infos newFreeEnd
  let p3 := setFreeEnd p2 newFreeEnd
  let p4 := setFirstFreeblock p3 0
  let p5 := setFragmentedBytes p4 0
  p5

/-- The (index, value_offset, value_len) records collected by Node::defrag. -/
def dinfos (p : Page) : List (Nat × Nat × Nat) :=
  (List.range (numKeys p)).map fun i => (i, valueOffsetAt p i, valueLenAt p i)

/-- Total number of live value bytes, as summed by Node::defrag. -/
def dTotal (p : Page) : Nat := ((dinfos p).map fun x => x.2.2).sum

/-- The scratch buffer of Node::defrag: all live values concatenated in
slot order. -/
def dbuffer (p : Page) : List Nat :=
  (dinfos p).flatMap fun x => readBytes p x.2.1 x.2.2

/-- Packed position of the value of slot i after a defrag. -/
def packedOffset (p : Page) (i : Nat) : Nat :=
  PAGE_SIZE - dTotal p + ((List.range i).map fun t => valueLenAt p t).sum

/-- Facts characterising the page produced by Node::defrag: header fields,
slot contents, and the packed value bytes. -/
structure DefragFacts (p : Page) : Prop where
  nk : numKeys (defrag p) = numKeys p
  fs : freeStart (defrag p) = freeStart p
  fe : freeEnd (defrag p) = PAGE_SIZE - dTotal p
  ffb : firstFreeblock (defrag p) = 0
  frag : fragmentedBytes (defrag p) = 0
  key : ∀ i, i < numKeys p → keyAt (defrag p) i = keyAt p i
  vlen : ∀ i, i < numKeys p → valueLenAt (defrag p) i = valueLenAt p i
  voff : ∀ i, i < numKeys p → valueOffsetAt (defrag p) i = packedOffset p i
  packed : ∀ s, s < dTotal p →
    byteAt (defrag p) (PAGE_SIZE - dTotal p + s) = (dbuffer p).getD s 0
  vbytes : ∀ i, i < numKeys p →
    readBytes (defrag p) (packedOffset p i) (valueLenAt p i) =
      readBytes p (valueOffsetAt p i) (valueLenAt p i)

/-- Walk of the freeblock chain in Node::delete_at_idx: find the insertion
point for the target offset, returning (predecessor, successor). -/
def fbWalkDel (p : Page) (target : Nat) : Option Nat → Nat → Nat → Option Nat × Nat
  | prev, curr, 0 => (prev, curr)
  | prev, curr, fuel + 1 =>
    if curr ≠ 0 ∧ curr < target then
      fbWalkDel p target (some curr) (readU16 p curr) fuel
    else (prev, curr)

/-- Node::delete_at_idx. -/
def delete_at_idx (p : Page) (idx : Nat) : KeyValuePair × Page :=
  let r := pop_key_at p idx
  let k := r.1.1
  let voff := r.1.2.1
  let vlen := r.1.2.2
  let p1 := r.2
  let dval := readBytes p1 voff vlen
  if voff = freeEnd p1 then
    (⟨k, dval⟩, setFreeEnd p1 (freeEnd p1 + vlen))
  else if vlen < FREEBLOCK_SIZE then
    (⟨k, dval⟩, setFragmentedBytes p1 (min (fragmentedBytes p1 + vlen) 255))
  else
    let w := fbWalkDel p1 voff none (firstFreeblock p1) PAGE_SIZE
    let p2 := write_freeblock p1 voff w.2 vlen
    let p3 :=
      match w.1 with
      | some pv => writeU16 p2 pv voff
      | none => setFirstFreeblock p2 voff
    (⟨k, dval⟩, p3)

/-- Tail of Node::delete_at_idx on the freeblock-insertion path: walk to
the insertion point, write the new freeblock header and patch the
predecessor link (or first_freeblock when inserting at the head). -/
def delTail (p1 : Page) (o v : Nat) (prevp : Option Nat) (start fuel : Nat) :
    Page :=
  let w := fbWalkDel p1 o prevp start fuel
  let p2 := write_freeblock p1 o w.2 v
  match w.1 with
  | some pv => writeU16 p2 pv o
  | none => setFirstFreeblock p2 o

/-- Node::delete. -/
def delete (p : Page) (key : Nat) : Page × Option KeyValuePair :=
  let r := find_le_key_idx p key
  if r.2 then
    let d := delete_at_idx p r.1
    (d.2, some d.1)
  else (p, none)

/-- Node::prepend_value: allocate from the high end. -/
def prepend_value (p : Page) (value : List Nat) : Nat × Page :=
  let newFreeEnd := freeEnd p - value.length
  let p1 := writeBytes p newFreeEnd value
  let p2 := setFreeEnd p1 newFreeEnd
  (newFreeEnd, p2)

/-- Result of Node::insert.  The replace branch of the source is a todo
macro (a panic), and the branch after a defrag that did not free enough
contiguous space is an explicit panic; both carry the page state at the
moment of the panic. -/
inductive InsertResult where
  | ok : Page → Option KeyValuePair → InsertResult
  | notEnoughSpace : Nat → Nat → Page → InsertResult
  | unimplementedReplace : Page → InsertResult
  | internalError : Page → InsertResult
  deriving DecidableEq, Repr

/-- First-fit freeblock walk of Node::insert.  Returns the resulting page
when some freeblock of sufficient size is found, none when the walk falls
off the end of the chain (the source then defragments). -/
def insertFbLoop (p : Page) (idx key : Nat) (value : List Nat) (vlen : Nat) :
    Option Nat → Nat → Nat → Option Page
  | _, _, 0 => none
  | prev, curr, fuel + 1 =>
    if curr = 0 then none
    else
      let sz := readU16 p (curr + 2)
      let nxt := readU16 p curr
      if sz < vlen then insertFbLoop p idx key value vlen (some curr) nxt fuel
      else
        let p1 :=
          if sz = vlen then
            match prev with
            | some pv => writeU16 p pv nxt
            | none => setFirstFreeblock p nxt
          else
            let remaining := sz - vlen
            if remaining < FREEBLOCK_SIZE then
              let pa := setFragmentedBytes p (min (fragmentedBytes p + remaining) 255)
              match prev with
              | some pv => writeU16 pa pv nxt
              | none => setFirstFreeblock pa nxt
            else
              let newOff := curr + vlen
              let pa := write_freeblock p newOff nxt remaining
              match prev with
              | some pv => writeU16 pa pv newOff
              | none => setFirstFreeblock pa newOff
        let p2 := writeBytes p1 curr value
        let p3 := insert_key_at p2 idx key 0 curr vlen
        some p3

/-- Node::insert. -/
def insert (p : Page) (key : Nat) (value : List Nat) : InsertResult :=
  let vlen := value.length
  let r := find_le_key_idx p key
  let idx := r.1
  if r.2 then .unimplementedReplace p
  else if KEY_SIZE + vlen < unallocated_space p then
    let a := prepend_value p value
    let p2 := insert_key_at a.2 idx key 0 a.1 vlen
    .ok p2 none
  else if free_space p < KEY_SIZE + vlen then
    .notEnoughSpace (KEY_SIZE + vlen) (free_space p) p
  else
    match insertFbLoop p idx key value vlen none (firstFreeblock p) PAGE_SIZE with
    | some p3 => .ok p3 none
    | none =>
      let pd := defrag p
      if KEY_SIZE + vlen < unallocated_space pd then
        let a := prepend_value pd value
        let p2 := insert_key_at a.2 idx key 0 a.1 vlen
        .ok p2 none
      else .internalError pd

/-- Insertion of a freeblock record into an offset-sorted chain list, in
front of the first record of larger offset. -/
def insertFB (x : Nat × Nat) : List (Nat × Nat) → List (Nat × Nat)
  | [] => [x]
  | y :: t => if y.1 < x.1 then y :: insertFB x t else x :: y :: t

/-- Offset of the first chain record whose offset is not below o (0 when
every record is below o). -/
def succOffset (o : Nat) : List (Nat × Nat) → Nat
  | [] => 0
  | y :: t => if y.1 < o then succOffset o t else y.1

/-- Page component of an insert result (the buffer state after the call,
also at a panic). -/
def resultPage : InsertResult → Page
  | .ok q _ => q
  | .notEnoughSpace _ _ q => q
  | .unimplementedReplace q => q
  | .internalError q => q

/-- Whether an insert result is a success. -/
def isOk : InsertResult → Bool
  | .ok _ _ => true
  | _ => false

/-- Whether an insert result is the post-defragmentation fatal internal
error (the explicit panic in Node::insert). -/
def isInternalError : InsertResult → Bool
  | .internalError _ => true
  | _ => false

/-- Page after a successful insert (shorthand for scenario chains). -/
def insOk (p : Page) (k : Nat) (v : List Nat) : Page := resultPage (insert p k v)

/-- Page after a delete. -/
def delPage (p : Page) (k : Nat) : Page := (delete p k).1

/-- Executable check that the freeblock chain rooted at off consists
exactly of the given (offset, size) records, linked in order. -/
def chainMatches (p : Page) : Nat → List (Nat × Nat) → Bool
  | off, [] => off == 0
  | off, (c, s) :: t =>
    off == c && readU16 p (c + 2) == s && chainMatches p (readU16 p c) t

/-- The freeblock chain rooted at off is exactly the list L of
(offset, size) records. -/
def isChain (p : Page) (off : Nat) (L : List (Nat × Nat)) : Prop :=
  chainMatches p off L = true

instance (p : Page) (off : Nat) (L : List (Nat × Nat)) :
    Decidable (isChain p off L) :=
  inferInstanceAs (Decidable (chainMatches p off L = true))

/-! Concrete scenario pages used by the end-to-end claims. -/

/-- Page holding the single pair (1, [7, 7]). -/
def c1page : Page := insOk newPage 1 [7, 7]

/-- Page C5: an empty slot array with the whole payload region handed to a
two-block freeblock chain, built by the same header surgery as the repo's
test_insert_using_freeblock_with_fragmentation. -/
def c5page : Page :=
  let p := setFreeEnd newPage HEADER_SIZE
  let p := setFirstFreeblock p HEADER_SIZE
  let p := write_freeblock p HEADER_SIZE 40 16
  write_freeblock p 40 0 32

def c5result : InsertResult := insert c5page 101 (List.replicate 16 7)

/-- Page after insert (1, [1; 14]) on a fresh page. -/
def c7pageA : Page := insOk newPage 1 (List.replicate 14 1)

/-- Page after the subsequent delete(1). -/
def c7pageB : Page := delPage c7pageA 1

/-- Page after the subsequent insert (2, [2; 5]). -/
def c7pageC : Page := insOk c7pageB 2 (List.replicate 5 2)

/-- Pages of the fragmentation-accounting scenario: insert (1, ab),
(2, cd), (3, ef), then delete 1, 2, 3 in order. -/
def c9page3 : Page :=
  insOk (insOk (insOk newPage 1 [97, 98]) 2 [99, 100]) 3 [101, 102]

def c9page4 : Page := delPage c9page3 1
def c9page5 : Page := delPage c9page4 2
def c9page6 : Page := delPage c9page5 3

/-- Page of the chain-linking scenario: insert (1, [1; 10]), (2, [2; 8]),
(3, [3; 6]); the values sit at offsets 4086, 4078 and 4072. -/
def c3pageA : Page :=
  insOk (insOk (insOk newPage 1 (List.replicate 10 1))
    2 (List.replicate 8 2)) 3 (List.replicate 6 3)

/-- The same page after delete(2): one freeblock (4078, size 8). -/
def c3pageB : Page := delPage c3pageA 2

/-! Core lemmas about the byte-level primitives. -/

theorem pow256_eq (i : Nat) : pow256 i = 256 ^ i := by
  simp [pow256, Nat.shiftLeft_eq, pow_mul]

theorem pow256_pos (i : Nat) : 0 < (256 : Nat) ^ i := pow_pos (by norm_num) i

theorem byteAt_def (p i : Nat) : byteAt p i = p / 256 ^ i % 256 := by
  simp [byteAt, pow256_eq]

theorem setByte_def (p i x : Nat) :
    setByte p i x =
      p % 256 ^ i + x % 256 * 256 ^ i + p / 256 ^ (i + 1) * 256 ^ (i + 1) := by
  simp [setByte, pow256_eq]

theorem byteAt_lt (p i : Nat) : byteAt p i < 256 :=
  Nat.mod_lt _ (by norm_num)

/-- Adding a multiple of the next byte weight does not change a byte read
below it. -/
theorem byteAt_add_window (a b j : Nat) :
    (a + 256 ^ (j + 1) * b) / 256 ^ j % 256 = a / 256 ^ j % 256 := by
  have h : (256 : Nat) ^ (j + 1) * b = 256 ^ j * (256 * b) := by ring
  rw [h, Nat.add_mul_div_left _ _ (pow256_pos j), Nat.add_mul_mod_self_left]

/-- Truncating the page above offset i does not change a byte read below
offset i. -/
theorem byteAt_mod_high (p i j : Nat) (h : j < i) :
    p % 256 ^ i / 256 ^ j % 256 = p / 256 ^ j % 256 := by
  conv_rhs => rw [← Nat.mod_add_div p (256 ^ i)]
  have h2 : (256 : Nat) ^ i = 256 ^ (j + 1) * 256 ^ (i - j - 1) := by
    rw [← pow_add]; congr 1; omega
  rw [h2, mul_assoc, byteAt_add_window]

theorem byteAt_setByte_self (p i x : Nat) :
    byteAt (setByte p i x) i = x % 256 := by
  rw [byteAt_def, setByte_def]
  have hgrp : p % 256 ^ i + x % 256 * 256 ^ i + p / 256 ^ (i + 1) * 256 ^ (i + 1)
      = p % 256 ^ i + 256 ^ i * (x % 256 + 256 * (p / 256 ^ (i + 1))) := by
    rw [pow_succ]; ring
  rw [hgrp, Nat.add_mul_div_left _ _ (pow256_pos i),
    Nat.div_eq_of_lt (Nat.mod_lt _ (pow256_pos i)), Nat.zero_add,
    Nat.add_mul_mod_self_left, Nat.mod_eq_of_lt (Nat.mod_lt _ (by norm_num))]

theorem byteAt_setByte_of_ne (p i x j : Nat) (h : j ≠ i) :
    byteAt (setByte p i x) j = byteAt p j := by
  rw [byteAt_def, byteAt_def, setByte_def]
  rcases Nat.lt_or_ge j i with hji | hij
  · have e1 : (256 : Nat) ^ i = 256 ^ (j + 1) * 256 ^ (i - j - 1) := by
      rw [← pow_add]; congr 1; omega
    have e2 : (256 : Nat) ^ (i + 1) = 256 ^ (j + 1) * (256 ^ (i - j - 1) * 256 ^ 1) := by
      rw [← pow_add, ← pow_add]; congr 1; omega
    have h2 : p % 256 ^ i + x % 256 * 256 ^ i + p / 256 ^ (i + 1) * 256 ^ (i + 1)
        = p % 256 ^ i + 256 ^ (j + 1) *
            (x % 256 * 256 ^ (i - j - 1) +
              p / 256 ^ (i + 1) * (256 ^ (i - j - 1) * 256 ^ 1)) := by
      calc p % 256 ^ i + x % 256 * 256 ^ i + p / 256 ^ (i + 1) * 256 ^ (i + 1)
          = p % 256 ^ i + x % 256 * (256 ^ (j + 1) * 256 ^ (i - j - 1)) +
              p / 256 ^ (i + 1) * (256 ^ (j + 1) * (256 ^ (i - j - 1) * 256 ^ 1)) := by
            rw [← e1, ← e2]
        _ = p % 256 ^ i + 256 ^ (j + 1) *
              (x % 256 * 256 ^ (i - j - 1) +
                p / 256 ^ (i + 1) * (256 ^ (i - j - 1) * 256 ^ 1)) := by ring
    rw [h2, byteAt_add_window, byteAt_mod_high p i j hji]
  · have hij' : i + 1 ≤ j := by omega
    have hr : p % 256 ^ i + x % 256 * 256 ^ i < 256 ^ (i + 1) := by
      have h1 : p % 256 ^ i < 256 ^ i := Nat.mod_lt _ (pow256_pos i)
      have h2 : x % 256 ≤ 255 := by omega
      have h3 : x % 256 * 256 ^ i ≤ 255 * 256 ^ i := Nat.mul_le_mul_right _ h2
      have h4 : (256 : Nat) ^ (i + 1) = 256 ^ i + 255 * 256 ^ i := by ring
      omega
    have key : (p % 256 ^ i + x % 256 * 256 ^ i + p / 256 ^ (i + 1) * 256 ^ (i + 1))
        / 256 ^ j = p / 256 ^ j := by
      have e1 : (256 : Nat) ^ j = 256 ^ (i + 1) * 256 ^ (j - i - 1) := by
        rw [← pow_add]; congr 1; omega
      have d1 : (p % 256 ^ i + x % 256 * 256 ^ i + p / 256 ^ (i + 1) * 256 ^ (i + 1))
          / 256 ^ (i + 1) = p / 256 ^ (i + 1) := by
        rw [Nat.add_mul_div_right _ _ (pow256_pos (i + 1)),
          Nat.div_eq_of_lt hr, Nat.zero_add]
      rw [e1, ← Nat.div_div_eq_div_mul, d1, Nat.div_div_eq_div_mul, ← pow_add]
    rw [key]

theorem setByte_byteAt_self (p i : Nat) : setByte p i (byteAt p i) = p := by
  rw [setByte_def, byteAt_def]
  have h1 : p / 256 ^ i % 256 % 256 = p / 256 ^ i % 256 :=
    Nat.mod_eq_of_lt (Nat.mod_lt _ (by norm_num))
  rw [h1]
  have h2 : p / 256 ^ i % 256 * 256 ^ i + p / 256 ^ (i + 1) * 256 ^ (i + 1)
      = 256 ^ i * (p / 256 ^ i) := by
    have h3 : p / 256 ^ (i + 1) = p / 256 ^ i / 256 := by
      rw [Nat.div_div_eq_div_mul, ← pow_succ]
    rw [h3]
    have h4 : p / 256 ^ i % 256 + 256 * (p / 256 ^ i / 256) = p / 256 ^ i :=
      Nat.mod_add_div _ _
    calc p / 256 ^ i % 256 * 256 ^ i + p / 256 ^ i / 256 * 256 ^ (i + 1)
        = 256 ^ i * (p / 256 ^ i % 256 + 256 * (p / 256 ^ i / 256)) := by ring
      _ = 256 ^ i * (p / 256 ^ i) := by rw [h4]
  rw [Nat.add_assoc, h2, Nat.mod_add_div]

/-! Derived lemmas about multi-byte reads and writes. -/

theorem byteAt_mod_eq (p i : Nat) : byteAt p i % 256 = byteAt p i :=
  Nat.mod_eq_of_lt (byteAt_lt p i)

theorem byteAt_writeU16_of_ne (p off x j : Nat) (h1 : j ≠ off) (h2 : j ≠ off + 1) :
    byteAt (writeU16 p off x) j = byteAt p j := by
  unfold writeU16
  rw [byteAt_setByte_of_ne _ _ _ _ h2, byteAt_setByte_of_ne _ _ _ _ h1]

theorem byteAt_writeU16_lo (p off x : Nat) :
    byteAt (writeU16 p off x) off = x % 256 := by
  unfold writeU16
  rw [byteAt_setByte_of_ne _ _ _ _ (by omega), byteAt_setByte_self]
  omega

theorem byteAt_writeU16_hi (p off x : Nat) :
    byteAt (writeU16 p off x) (off + 1) = x / 256 % 256 := by
  unfold writeU16
  rw [byteAt_setByte_self]
  omega

theorem readU16_lt (p off : Nat) : readU16 p off < 65536 := by
  unfold readU16
  have := byteAt_lt p off
  have := byteAt_lt p (off + 1)
  omega

theorem readU16_writeU16_self (p off x : Nat) (h : x < 65536) :
    readU16 (writeU16 p off x) off = x := by
  unfold readU16
  rw [byteAt_writeU16_lo, byteAt_writeU16_hi]
  omega

theorem readU16_setByte_of_ne (p i x off : Nat) (h1 : off ≠ i) (h2 : off + 1 ≠ i) :
    readU16 (setByte p i x) off = readU16 p off := by
  unfold readU16
  rw [byteAt_setByte_of_ne _ _ _ _ h1, byteAt_setByte_of_ne _ _ _ _ h2]

theorem readU16_writeU16_of_disjoint (p a x b : Nat) (h : a + 2 ≤ b ∨ b + 2 ≤ a) :
    readU16 (writeU16 p a x) b = readU16 p b := by
  unfold readU16
  rw [byteAt_writeU16_of_ne _ _ _ _ (by omega) (by omega),
    byteAt_writeU16_of_ne _ _ _ _ (by omega) (by omega)]

theorem writeU16_readU16_self (p off : Nat) :
    writeU16 p off (readU16 p off) = p := by
  unfold writeU16 readU16
  have h0 := byteAt_lt p off
  have h1 := byteAt_lt p (off + 1)
  have e0 : (byteAt p off + 256 * byteAt p (off + 1)) % 256 = byteAt p off := by
    omega
  have e1 : (byteAt p off + 256 * byteAt p (off + 1)) / 256 % 256 =
      byteAt p (off + 1) := by omega
  rw [e0, e1, setByte_byteAt_self]
  have e2 : byteAt (setByte p off (byteAt p off)) (off + 1) = byteAt p (off + 1) := by
    rw [setByte_byteAt_self]
  rw [← e2, setByte_byteAt_self, setByte_byteAt_self]

theorem writeBytes_cons (p : Page) (off b : Nat) (t : List Nat) :
    writeBytes p off (b :: t) = writeBytes (setByte p off b) (off + 1) t := rfl

theorem byteAt_writeBytes_of_lt (bs : List Nat) (p : Page) (off j : Nat)
    (h : j < off) : byteAt (writeBytes p off bs) j = byteAt p j := by
  induction bs generalizing p off with
  | nil => rfl
  | cons b t ih =>
    rw [writeBytes_cons, ih _ _ (by omega), byteAt_setByte_of_ne _ _ _ _ (by omega)]

theorem byteAt_writeBytes_of_ge (bs : List Nat) (p : Page) (off j : Nat)
    (h : off + bs.length ≤ j) : byteAt (writeBytes p off bs) j = byteAt p j := by
  induction bs generalizing p off with
  | nil => rfl
  | cons b t ih =>
    simp only [List.length_cons] at h
    rw [writeBytes_cons, ih _ _ (by omega), byteAt_setByte_of_ne _ _ _ _ (by omega)]

theorem byteAt_writeBytes_getD (bs : List Nat) (p : Page) (off j : Nat)
    (h1 : off ≤ j) (h2 : j < off + bs.length) :
    byteAt (writeBytes p off bs) j = bs.getD (j - off) 0 % 256 := by
  induction bs generalizing p off with
  | nil => simp at h2; omega
  | cons b t ih =>
    by_cases hj : j = off
    · subst hj
      rw [writeBytes_cons, byteAt_writeBytes_of_lt _ _ _ _ (by omega),
        byteAt_setByte_self]
      simp
    · have hoff : off + 1 ≤ j := by omega
      simp only [List.length_cons] at h2
      rw [writeBytes_cons, ih _ _ hoff (by omega)]
      have hidx : j - off = (j - (off + 1)) + 1 := by omega
      rw [hidx, List.getD_cons_succ]

theorem readBytes_length (p : Page) (off len : Nat) :
    (readBytes p off len).length = len := by simp [readBytes]

theorem readBytes_getD (p : Page) (off len j : Nat) (h : j < len) :
    (readBytes p off len).getD j 0 = byteAt p (off + j) := by
  simp [readBytes, List.getD_eq_getElem?_getD, List.getElem?_map,
    List.getElem?_range h]

theorem readBytes_congr (p q : Page) (off len : Nat)
    (h : ∀ j, j < len → byteAt p (off + j) = byteAt q (off + j)) :
    readBytes p off len = readBytes q off len := by
  simp only [readBytes]
  apply List.map_congr_left
  intro a ha
  exact h a (List.mem_range.mp ha)

theorem readBytes_succ (p : Page) (off len : Nat) :
    readBytes p off (len + 1) = byteAt p off :: readBytes p (off + 1) len := by
  simp only [readBytes, List.range_succ_eq_map, List.map_cons, Nat.add_zero,
    List.map_map]
  congr 1
  apply List.map_congr_left
  intro a _
  show byteAt p (off + Nat.succ a) = byteAt p (off + 1 + a)
  congr 1
  omega

theorem writeBytes_readBytes_self (len : Nat) (p : Page) (off : Nat) :
    writeBytes p off (readBytes p off len) = p := by
  induction len generalizing p off with
  | zero => rfl
  | succ n ih =>
    rw [readBytes_succ, writeBytes_cons, setByte_byteAt_self, ih]

theorem writeBytes_append (a b : List Nat) (p : Page) (off : Nat) :
    writeBytes p off (a ++ b) =
      writeBytes (writeBytes p off a) (off + a.length) b := by
  induction a generalizing p off with
  | nil => simp [writeBytes]
  | cons x t ih =>
    simp only [List.cons_append, writeBytes_cons, List.length_cons]
    rw [ih]
    have : off + 1 + t.length = off + (t.length + 1) := by omega
    rw [this]

/-! Binary search: the loop invariant of Node::find_le_key_idx. -/

/-- Strict adjacent sortedness implies full strict sortedness of the keys. -/
theorem keyAt_lt_of_lt (p : Page) (n : Nat)
    (hs : ∀ i, i + 1 < n → keyAt p i < keyAt p (i + 1))
    {i j : Nat} (hij : i < j) (hj : j < n) : keyAt p i < keyAt p j := by
  induction j with
  | zero => omega
  | succ m ih =>
    rcases Nat.lt_or_ge i m with him | him
    · exact lt_trans (ih him (by omega)) (hs m hj)
    · have : i = m := by omega
      subst this
      exact hs i hj

/-- Invariant-based specification of the binary-search loop. -/
theorem findLoop_spec (p : Page) (k n : Nat)
    (hs : ∀ i j, i < j → j < n → keyAt p i < keyAt p j) :
    ∀ fuel low high, low ≤ high → high ≤ n → high - low < fuel →
      (∀ i, i < low → keyAt p i < k) →
      (∀ i, high ≤ i → i < n → k < keyAt p i) →
      ((findLoop p k low high fuel).2 = true →
          (findLoop p k low high fuel).1 < n ∧
          keyAt p (findLoop p k low high fuel).1 = k) ∧
      ((findLoop p k low high fuel).2 = false →
          (findLoop p k low high fuel).1 ≤ n ∧
          (∀ i, i < (findLoop p k low high fuel).1 → keyAt p i < k) ∧
          (∀ i, (findLoop p k low high fuel).1 ≤ i → i < n →
            k < keyAt p i)) := by
  intro fuel
  induction fuel with
  | zero => intro low high h1 h2 h3; omega
  | succ f ih =>
    intro low high h1 h2 h3 hlo hhi
    by_cases hlh : low < high
    · have hmid1 : (low + high) / 2 < high := by omega
      have hmid2 : low ≤ (low + high) / 2 := by omega
      by_cases heq : keyAt p ((low + high) / 2) = k
      · have hres : findLoop p k low high (f + 1) = ((low + high) / 2, true) := by
          simp [findLoop, hlh, heq]
        rw [hres]
        refine ⟨fun _ => ⟨by omega, heq⟩, fun hfalse => by simp at hfalse⟩
      · by_cases hlt : keyAt p ((low + high) / 2) < k
        · have hres : findLoop p k low high (f + 1) =
              findLoop p k ((low + high) / 2 + 1) high f := by
            simp [findLoop, hlh, heq, hlt]
          rw [hres]
          apply ih ((low + high) / 2 + 1) high (by omega) h2 (by omega)
          · intro i hi
            rcases Nat.lt_or_ge i ((low + high) / 2) with hi2 | hi2
            · exact lt_trans (hs i _ hi2 (by omega)) hlt
            · have : i = (low + high) / 2 := by omega
              subst this
              exact hlt
          · exact hhi
        · have hgt : k < keyAt p ((low + high) / 2) := by
            omega
          have hres : findLoop p k low high (f + 1) =
              findLoop p k low ((low + high) / 2) f := by
            simp [findLoop, hlh, heq, hlt]
          rw [hres]
          apply ih low ((low + high) / 2) hmid2 (by omega) (by omega) hlo
          intro i hi hin
          rcases Nat.lt_or_ge ((low + high) / 2) i with hi2 | hi2
          · exact lt_trans hgt (hs _ i hi2 hin)
          · have : i = (low + high) / 2 := by omega
            subst this
            exact hgt
    · have hres : findLoop p k low high (f + 1) = (low, false) := by
        simp [findLoop, hlh]
      rw [hres]
      refine ⟨fun htrue => by simp at htrue, fun _ => ⟨by omega, hlo, ?_⟩⟩
      intro i hi hin
      exact hhi i (by omega) hin

/-- The search never reports found when no slot key equals the target. -/
theorem findLoop_absent (p : Page) (k n : Nat)
    (h : ∀ i, i < n → keyAt p i ≠ k) :
    ∀ fuel low high, high ≤ n → (findLoop p k low high fuel).2 = false := by
  intro fuel
  induction fuel with
  | zero => intro low high _; rfl
  | succ f ih =>
    intro low high h2
    by_cases hlh : low < high
    · have hne : keyAt p ((low + high) / 2) ≠ k := h _ (by omega)
      by_cases hlt : keyAt p ((low + high) / 2) < k
      · have : findLoop p k low high (f + 1) =
            findLoop p k ((low + high) / 2 + 1) high f := by
          simp [findLoop, hlh, hne, hlt]
        rw [this]
        exact ih _ _ h2
      · have : findLoop p k low high (f + 1) =
            findLoop p k low ((low + high) / 2) f := by
          simp [findLoop, hlh, hne, hlt]
        rw [this]
        exact ih _ _ (by omega)
    · simp [findLoop, hlh]

/-- Node::find_le_key_idx reports not-found when the key is absent,
regardless of slot order. -/
theorem find_le_key_idx_absent (p : Page) (k : Nat)
    (h : ∀ i, i < numKeys p → keyAt p i ≠ k) :
    (find_le_key_idx p k).2 = false := by
  unfold find_le_key_idx
  by_cases hn : numKeys p = 0
  · simp [hn]
  · simp only [hn, if_false]
    exact findLoop_absent p k (numKeys p) h _ 0 (numKeys p) (le_refl _)

/-- Unallocated space never exceeds total free space. -/
theorem unallocated_le_free_space (p : Page) :
    unallocated_space p ≤ free_space p := by
  unfold free_space
  omega

/-- C8: on a page whose slot array is sorted strictly ascending,
find_le_key_idx returns the exact position with found = true when the key
is present, and otherwise found = false with the index being the smallest
position whose slot key is greater than the searched key (num_keys when
every slot key is smaller). -/
theorem c8_find_le_correct (p : Page) (k : Nat)
    (hs : ∀ i, i + 1 < numKeys p → keyAt p i < keyAt p (i + 1)) :
    (∀ i, i < numKeys p → keyAt p i = k → find_le_key_idx p k = (i, true)) ∧
    ((∀ i, i < numKeys p → keyAt p i ≠ k) →
      (find_le_key_idx p k).2 = false ∧
      (find_le_key_idx p k).1 ≤ numKeys p ∧
      (∀ i, i < (find_le_key_idx p k).1 → keyAt p i < k) ∧
      (∀ i, (find_le_key_idx p k).1 ≤ i → i < numKeys p → k < keyAt p i)) := by
  have hs' : ∀ i j, i < j → j < numKeys p → keyAt p i < keyAt p j :=
    fun i j hij hj => keyAt_lt_of_lt p (numKeys p) hs hij hj
  by_cases hn : numKeys p = 0
  · constructor
    · intro i hi
      omega
    · intro _
      have hr : find_le_key_idx p k = (0, false) := by
        simp [find_le_key_idx, hn]
      rw [hr]
      exact ⟨rfl, by omega, fun i hi => by omega, fun i _ hi => by omega⟩
  · have hdef : find_le_key_idx p k =
        findLoop p k 0 (numKeys p) (numKeys p + 1) := by
      simp [find_le_key_idx, hn]
    have hmaster := findLoop_spec p k (numKeys p) hs' (numKeys p + 1) 0
      (numKeys p) (by omega) (le_refl _) (by omega)
      (fun i hi => by omega) (fun i hge hlt => by omega)
    constructor
    · intro i hi hk
      cases hb : (findLoop p k 0 (numKeys p) (numKeys p + 1)).2 with
      | true =>
        obtain ⟨hlt, hkey⟩ := hmaster.1 hb
        have hidx : (findLoop p k 0 (numKeys p) (numKeys p + 1)).1 = i := by
          rcases Nat.lt_trichotomy
            (findLoop p k 0 (numKeys p) (numKeys p + 1)).1 i with h | h | h
          · have := hs' _ _ h hi
            rw [hkey, hk] at this
            omega
          · exact h
          · have := hs' _ _ h hlt
            rw [hkey, hk] at this
            omega
        rw [hdef, Prod.ext_iff]
        exact ⟨hidx, hb⟩
      | false =>
        obtain ⟨_, hlo, hhi⟩ := hmaster.2 hb
        rcases Nat.lt_or_ge i (findLoop p k 0 (numKeys p) (numKeys p + 1)).1
          with h | h
        · have := hlo i h
          omega
        · have := hhi i h hi
          omega
    · intro habs
      have hb : (findLoop p k 0 (numKeys p) (numKeys p + 1)).2 = false := by
        cases hb : (findLoop p k 0 (numKeys p) (numKeys p + 1)).2 with
        | true =>
          obtain ⟨hlt, hkey⟩ := hmaster.1 hb
          exact absurd hkey (habs _ hlt)
        | false => rfl
      obtain ⟨hle, hlo, hhi⟩ := hmaster.2 hb
      rw [hdef]
      exact ⟨hb, hle, hlo, hhi⟩

/-- Concrete sorted page with keys 1, 4, 6 for the find_le witness. -/
def c8page : Page := insOk (insOk (insOk newPage 1 [49]) 4 [50, 50]) 6 [51]

/-- Witness for C8 at the sorted page with keys 1, 4, 6 and the absent
key 5. -/
theorem c8_find_le_correct_witness :
    (∀ i, i + 1 < numKeys c8page → keyAt c8page i < keyAt c8page (i + 1)) ∧
    ((∀ i, i < numKeys c8page → keyAt c8page i = 5 →
        find_le_key_idx c8page 5 = (i, true)) ∧
     ((∀ i, i < numKeys c8page → keyAt c8page i ≠ 5) →
       (find_le_key_idx c8page 5).2 = false ∧
       (find_le_key_idx c8page 5).1 ≤ numKeys c8page ∧
       (∀ i, i < (find_le_key_idx c8page 5).1 → keyAt c8page i < 5) ∧
       (∀ i, (find_le_key_idx c8page 5).1 ≤ i → i < numKeys c8page →
         5 < keyAt c8page i))) := by
  have hn : numKeys c8page = 3 := by decide
  have hadj : ∀ i, i < 2 → keyAt c8page i < keyAt c8page (i + 1) := by decide
  have hs : ∀ i, i + 1 < numKeys c8page → keyAt c8page i < keyAt c8page (i + 1) := by
    intro i hi
    rw [hn] at hi
    exact hadj i (by omega)
  exact ⟨hs, c8_find_le_correct c8page 5 hs⟩

/-- C10: deleting an absent key returns absent and the identical page (no
byte of the 4096-byte buffer is modified); pages are base-256 encodings,
so page equality is byte-identity. -/
theorem c10_delete_absent_identity (p : Page) (k : Nat)
    (h : ∀ i, i < numKeys p → keyAt p i ≠ k) :
    delete p k = (p, none) := by
  have hf := find_le_key_idx_absent p k h
  simp [delete, hf]

/-- Witness for C10: deleting the absent key 2 from the page holding only
key 1 returns the page unchanged. -/
theorem c10_delete_absent_identity_witness :
    (∀ i, i < numKeys c1page → keyAt c1page i ≠ 2) ∧
    delete c1page 2 = (c1page, none) :=
  ⟨by decide, c10_delete_absent_identity c1page 2 (by decide)⟩

/-- C4: with the key absent and a u16-representable value length (the
source debug-asserts value.len < 2^16 and does all space arithmetic in
u16), insert fails with NotEnoughSpace exactly when the fast path does not
apply (unallocated < 16 + value.len) and free_space < 16 + value.len; the
error carries required = 16 + value.len and actual = free_space, and any
NotEnoughSpace result returns the page byte-identical (q = p). -/
theorem c4_not_enough_space_iff (p : Page) (k : Nat) (v : List Nat)
    (habs : ∀ i, i < numKeys p → keyAt p i ≠ k)
    (hv : v.length + KEY_SIZE < 65536) :
    (∀ r a q, insert p k v = InsertResult.notEnoughSpace r a q →
      r = KEY_SIZE + v.length ∧ a = free_space p ∧ q = p) ∧
    (insert p k v =
        InsertResult.notEnoughSpace (KEY_SIZE + v.length) (free_space p) p ↔
      unallocated_space p < KEY_SIZE + v.length ∧
      free_space p < KEY_SIZE + v.length) := by
  have hf : (find_le_key_idx p k).2 = false := find_le_key_idx_absent p k habs
  unfold insert
  simp only [hf, Bool.false_eq_true, if_false]
  by_cases h1 : KEY_SIZE + v.length < unallocated_space p
  · rw [if_pos h1]
    refine ⟨fun r a q h => InsertResult.noConfusion h,
      ⟨fun h => InsertResult.noConfusion h, fun h => absurd h.1 (by omega)⟩⟩
  · rw [if_neg h1]
    by_cases h2 : free_space p < KEY_SIZE + v.length
    · rw [if_pos h2]
      have hple := unallocated_le_free_space p
      refine ⟨fun r a q h => ?_, ⟨fun _ => ⟨by omega, h2⟩, fun _ => rfl⟩⟩
      injection h with e1 e2 e3
      exact ⟨e1.symm, e2.symm, e3.symm⟩
    · rw [if_neg h2]
      cases hm : insertFbLoop p (find_le_key_idx p k).1 k v v.length none
          (firstFreeblock p) PAGE_SIZE with
      | some p3 =>
        exact ⟨fun r a q h => InsertResult.noConfusion h,
          ⟨fun h => InsertResult.noConfusion h, fun h => absurd h.2 h2⟩⟩
      | none =>
        by_cases h3 : KEY_SIZE + v.length < unallocated_space (defrag p)
        · rw [if_pos h3]
          exact ⟨fun r a q h => InsertResult.noConfusion h,
            ⟨fun h => InsertResult.noConfusion h, fun h => absurd h.2 h2⟩⟩
        · rw [if_neg h3]
          exact ⟨fun r a q h => InsertResult.noConfusion h,
            ⟨fun h => InsertResult.noConfusion h, fun h => absurd h.2 h2⟩⟩

/-- Page with no keys whose free_end has been lowered to 20, leaving
free_space = 6, for the NotEnoughSpace witness. -/
def c4page : Page := setFreeEnd newPage 20

/-- Witness for C4: inserting a 3-byte value (required = 19) into a page
with free_space = 6 yields NotEnoughSpace 19 6 with the page unchanged. -/
theorem c4_not_enough_space_iff_witness :
    (∀ i, i < numKeys c4page → keyAt c4page i ≠ 5) ∧
    ([1, 2, 3] : List Nat).length + KEY_SIZE < 65536 ∧
    ((∀ r a q, insert c4page 5 [1, 2, 3] = InsertResult.notEnoughSpace r a q →
        r = KEY_SIZE + ([1, 2, 3] : List Nat).length ∧
        a = free_space c4page ∧ q = c4page) ∧
      (insert c4page 5 [1, 2, 3] =
          InsertResult.notEnoughSpace
            (KEY_SIZE + ([1, 2, 3] : List Nat).length) (free_space c4page)
            c4page ↔
        unallocated_space c4page < KEY_SIZE + ([1, 2, 3] : List Nat).length ∧
        free_space c4page < KEY_SIZE + ([1, 2, 3] : List Nat).length)) :=
  ⟨by decide, by decide,
    c4_not_enough_space_iff c4page 5 [1, 2, 3] (by decide) (by decide)⟩

/-! Lemmas for defragmentation (claim C6). -/

theorem sum_map_filter_split {α : Type} (f : α → Nat) (pr : α → Bool) :
    ∀ t : List α,
      (((t.filter pr).map f).sum + ((t.filter fun x => ! pr x).map f).sum =
        (t.map f).sum)
  | [] => rfl
  | a :: t => by
    have ih := sum_map_filter_split f pr t
    cases h : pr a <;> simp [List.filter_cons, h, List.map_cons] <;> omega

/-- Pairwise disjoint intervals inside a window have total length at most
the window size. -/
theorem sum_disjoint_intervals :
    ∀ (fuel : Nat) (L : List (Nat × Nat)) (lo hi : Nat),
      L.length ≤ fuel →
      (∀ x ∈ L, lo ≤ x.1 ∧ x.1 + x.2 ≤ hi) →
      L.Pairwise (fun a b => a.1 + a.2 ≤ b.1 ∨ b.1 + b.2 ≤ a.1) →
      (L.map fun x => x.2).sum ≤ hi - lo := by
  intro fuel
  induction fuel with
  | zero =>
    intro L lo hi hlen _ _
    have : L = [] := List.length_eq_zero.mp (by omega)
    subst this
    simp
  | succ f ih =>
    intro L lo hi hlen hin hpw
    cases L with
    | nil => simp
    | cons a t =>
      obtain ⟨hlo, hhi⟩ := hin a (List.mem_cons_self a t)
      rw [List.pairwise_cons] at hpw
      obtain ⟨hhead, hpw'⟩ := hpw
      have hsplit := sum_map_filter_split (fun x : Nat × Nat => x.2)
        (fun b => decide (b.1 + b.2 ≤ a.1)) t
      have hleft : ((t.filter fun b => decide (b.1 + b.2 ≤ a.1)).map
          fun x => x.2).sum ≤ a.1 - lo := by
        apply ih _ lo a.1
        · have := List.length_filter_le (fun b => decide (b.1 + b.2 ≤ a.1)) t
          simp at hlen
          omega
        · intro x hx
          have hx' := List.mem_of_mem_filter hx
          have hcond := List.of_mem_filter hx
          simp at hcond
          exact ⟨(hin x (List.mem_cons_of_mem a hx')).1, hcond⟩
        · exact hpw'.filter _
      have hright : ((t.filter fun b => ! decide (b.1 + b.2 ≤ a.1)).map
          fun x => x.2).sum ≤ hi - (a.1 + a.2) := by
        apply ih _ (a.1 + a.2) hi
        · have := List.length_filter_le (fun b => ! decide (b.1 + b.2 ≤ a.1)) t
          simp at hlen
          omega
        · intro x hx
          have hx' := List.mem_of_mem_filter hx
          have hcond := List.of_mem_filter hx
          simp at hcond
          have hdisj := hhead x hx'
          exact ⟨by omega, (hin x (List.mem_cons_of_mem a hx')).2⟩
        · exact hpw'.filter _
      simp only [List.map_cons, List.sum_cons]
      omega

theorem getD_lt_256 (bs : List Nat) (h : ∀ b ∈ bs, b < 256) (m : Nat) :
    bs.getD m 0 < 256 := by
  by_cases hm : m < bs.length
  · rw [List.getD_eq_getElem _ _ hm]
    exact h _ (List.getElem_mem hm)
  · rw [List.getD_eq_default _ _ (by omega)]
    norm_num

theorem list_ext_getD (a b : List Nat) (hlen : a.length = b.length)
    (h : ∀ m, m < a.length → a.getD m 0 = b.getD m 0) : a = b := by
  apply List.ext_getElem hlen
  intro i h1 h2
  have := h i h1
  rwa [List.getD_eq_getElem _ _ h1, List.getD_eq_getElem _ _ h2] at this

/-- Indexing into the concatenation of the value segments read by defrag. -/
theorem getD_flatMap_readBytes :
    ∀ (t : List (Nat × Nat × Nat)) (p : Page) (i : Nat) (hi : i < t.length)
      (off : Nat), off < (t.get ⟨i, hi⟩).2.2 →
      ((t.flatMap fun x => readBytes p x.2.1 x.2.2).getD
          ((((t.take i).map fun x => x.2.2).sum) + off) 0)
        = byteAt p ((t.get ⟨i, hi⟩).2.1 + off)
  | [], _, i, hi, _, _ => by simp at hi
  | a :: t, p, 0, hi, off, hoff => by
    simp only [List.flatMap_cons, List.take_zero, List.map_nil, List.sum_nil,
      Nat.zero_add, List.get]
    rw [List.getD_append _ _ _ _ (by rw [readBytes_length]; exact hoff)]
    exact readBytes_getD p _ _ _ hoff
  | a :: t, p, i + 1, hi, off, hoff => by
    simp only [List.flatMap_cons, List.take_succ_cons, List.map_cons,
      List.sum_cons, List.get]
    rw [Nat.add_assoc,
      List.getD_append_right _ _ _ _ (by rw [readBytes_length]; omega)]
    rw [readBytes_length]
    have heq : a.2.2 + (((t.take i).map fun x => x.2.2).sum + off) - a.2.2 =
        ((t.take i).map fun x => x.2.2).sum + off := by omega
    rw [heq]
    exact getD_flatMap_readBytes t p i (by simpa using hi) off hoff

theorem getKeyPos_eq (i : Nat) : getKeyPos i = 14 + 16 * i := rfl

theorem sum_range_map_succ (f : Nat → Nat) (n : Nat) :
    ((List.range (n + 1)).map f).sum = ((List.range n).map f).sum + f n := by
  rw [List.range_succ]
  simp

theorem sum_range_map_le (f : Nat → Nat) {i n : Nat} (h : i ≤ n) :
    ((List.range i).map f).sum ≤ ((List.range n).map f).sum := by
  induction n with
  | zero =>
    have : i = 0 := by omega
    subst this
    exact le_refl _
  | succ m ih =>
    by_cases hi : i = m + 1
    · subst hi
      exact le_refl _
    · have h2 := ih (by omega)
      rw [sum_range_map_succ]
      omega

/-- Bytes outside every slot's value_offset field are untouched by the
slot-rewrite pass of defrag. -/
theorem defragRewrite_byteAt :
    ∀ (infos : List (Nat × Nat × Nat)) (p : Page) (pos j : Nat),
      (∀ x ∈ infos, j ≠ getKeyPos x.1 + 12 ∧ j ≠ getKeyPos x.1 + 13) →
      byteAt (defragRewrite p infos pos) j = byteAt p j
  | [], _, _, _, _ => rfl
  | (i, o, len) :: t, p, pos, j, h => by
    obtain ⟨h1, h2⟩ := h (i, o, len) (List.mem_cons_self _ _)
    have h1' : j ≠ getKeyPos i + 12 := h1
    have h2' : j ≠ getKeyPos i + 13 := h2
    simp only [defragRewrite]
    rw [defragRewrite_byteAt t _ _ _ fun x hx => h x (List.mem_cons_of_mem _ hx)]
    exact byteAt_writeU16_of_ne _ _ _ _ h1' (by omega)

theorem defragRewrite_readU16 (infos : List (Nat × Nat × Nat)) (p : Page)
    (pos off : Nat)
    (h : ∀ x ∈ infos, off + 2 ≤ getKeyPos x.1 + 12 ∨ getKeyPos x.1 + 14 ≤ off) :
    readU16 (defragRewrite p infos pos) off = readU16 p off := by
  unfold readU16
  rw [defragRewrite_byteAt infos p pos off
      (fun x hx => by have := h x hx; omega),
    defragRewrite_byteAt infos p pos (off + 1)
      (fun x hx => by have := h x hx; omega)]

/-- The slot-rewrite pass points slot number j at its packed position. -/
theorem defragRewrite_voffAt :
    ∀ (infos : List (Nat × Nat × Nat)) (p : Page) (pos : Nat),
      List.Pairwise (fun a b => a.1 ≠ b.1) infos →
      pos + ((infos.map fun x => x.2.2).sum) < 65536 →
      ∀ (j : Nat) (hj : j < infos.length),
        valueOffsetAt (defragRewrite p infos pos) (infos.get ⟨j, hj⟩).1 =
          pos + ((infos.take j).map fun x => x.2.2).sum
  | [], _, _, _, _, j, hj => by simp at hj
  | (i, o, len) :: t, p, pos, hdist, hpos, 0, hj => by
    rw [List.pairwise_cons] at hdist
    obtain ⟨hhead, _⟩ := hdist
    simp only [defragRewrite, List.get, List.take_zero, List.map_nil,
      List.sum_nil, Nat.add_zero]
    unfold valueOffsetAt
    rw [defragRewrite_readU16 t _ _ _ ?_]
    · apply readU16_writeU16_self
      simp only [List.map_cons, List.sum_cons] at hpos
      omega
    · intro x hx
      have hne : x.1 ≠ i := fun he => (hhead x hx) he.symm
      simp only [getKeyPos_eq]
      omega
  | (i, o, len) :: t, p, pos, hdist, hpos, j + 1, hj => by
    rw [List.pairwise_cons] at hdist
    obtain ⟨_, hdist'⟩ := hdist
    simp only [defragRewrite, List.get, List.take_succ_cons, List.map_cons,
      List.sum_cons]
    rw [defragRewrite_voffAt t _ (pos + len) hdist' ?_ j (by simpa using hj)]
    · omega
    · simp only [List.map_cons, List.sum_cons] at hpos
      omega

theorem defrag_eq (p : Page) :
    defrag p =
      setFragmentedBytes
        (setFirstFreeblock
          (setFreeEnd
            (defragRewrite
              (writeBytes p (PAGE_SIZE - dTotal p) (dbuffer p))
              (dinfos p) (PAGE_SIZE - dTotal p))
            (PAGE_SIZE - dTotal p))
          0)
        0 := rfl

theorem dinfos_length (p : Page) : (dinfos p).length = numKeys p := by
  simp [dinfos]

theorem dinfos_get (p : Page) (i : Fin (dinfos p).length) :
    (dinfos p).get i = (i.1, valueOffsetAt p i.1, valueLenAt p i.1) := by
  simp [dinfos]

theorem dinfos_fst_lt (p : Page) : ∀ x ∈ dinfos p, x.1 < numKeys p := by
  intro x hx
  simp only [dinfos, List.mem_map, List.mem_range] at hx
  obtain ⟨i, hi, rfl⟩ := hx
  exact hi

theorem dinfos_map_len (p : Page) :
    ((dinfos p).map fun x => x.2.2) =
      (List.range (numKeys p)).map fun t => valueLenAt p t := by
  simp [dinfos, List.map_map]

theorem dTotal_eq (p : Page) :
    dTotal p = ((List.range (numKeys p)).map fun t => valueLenAt p t).sum := by
  rw [dTotal, dinfos_map_len]

theorem dinfos_take_map_len (p : Page) (i : Nat) (hi : i ≤ numKeys p) :
    (((dinfos p).take i).map fun x => x.2.2) =
      (List.range i).map fun t => valueLenAt p t := by
  rw [dinfos, ← List.map_take, List.take_range, Nat.min_eq_left hi,
    List.map_map]
  rfl

theorem dbuffer_length (p : Page) : (dbuffer p).length = dTotal p := by
  rw [dbuffer, dTotal, List.length_flatMap]
  congr 1
  apply List.map_congr_left
  intro x _
  exact readBytes_length p x.2.1 x.2.2

theorem dbuffer_lt_256 (p : Page) : ∀ b ∈ dbuffer p, b < 256 := by
  intro b hb
  simp only [dbuffer, List.mem_flatMap] at hb
  obtain ⟨x, _, hbx⟩ := hb
  simp only [readBytes, List.mem_map] at hbx
  obtain ⟨j, _, rfl⟩ := hbx
  exact byteAt_lt _ _

/-- Total live value bytes fit in the payload window. -/
theorem dTotal_le (p : Page)
    (hreg : ∀ i, i < numKeys p → freeEnd p ≤ valueOffsetAt p i ∧
      valueOffsetAt p i + valueLenAt p i ≤ PAGE_SIZE)
    (hdisj : ∀ j, j < numKeys p → ∀ i, i < j →
      valueOffsetAt p i + valueLenAt p i ≤ valueOffsetAt p j ∨
      valueOffsetAt p j + valueLenAt p j ≤ valueOffsetAt p i) :
    dTotal p ≤ PAGE_SIZE - freeEnd p := by
  have hmain := sum_disjoint_intervals
    ((List.range (numKeys p)).map fun i =>
      (valueOffsetAt p i, valueLenAt p i)).length
    ((List.range (numKeys p)).map fun i =>
      (valueOffsetAt p i, valueLenAt p i))
    (freeEnd p) PAGE_SIZE (le_refl _) ?_ ?_
  · rw [List.map_map] at hmain
    rw [dTotal_eq]
    exact hmain
  · intro x hx
    simp only [List.mem_map, List.mem_range] at hx
    obtain ⟨i, hi, rfl⟩ := hx
    exact hreg i hi
  · rw [List.pairwise_iff_getElem]
    intro a b ha hb hab
    simp only [List.getElem_map, List.getElem_range]
    simp only [List.length_map, List.length_range] at ha hb
    exact hdisj b hb a hab

theorem readU64_congr (q r : Page) (off : Nat)
    (h : ∀ d, d < 8 → byteAt q (off + d) = byteAt r (off + d)) :
    readU64 q off = readU64 r off := by
  unfold readU64
  have h0 : byteAt q off = byteAt r off := by simpa using h 0 (by omega)
  have h1 := h 1 (by omega)
  have h2 := h 2 (by omega)
  have h3 := h 3 (by omega)
  have h4 := h 4 (by omega)
  have h5 := h 5 (by omega)
  have h6 := h 6 (by omega)
  have h7 := h 7 (by omega)
  rw [h0, h1, h2, h3, h4, h5, h6, h7]

theorem dinfos_pairwise_ne (p : Page) :
    List.Pairwise (fun a b => a.1 ≠ b.1) (dinfos p) := by
  rw [List.pairwise_iff_get]
  intro a b hab
  rw [dinfos_get, dinfos_get]
  have hv : a.1 < b.1 := hab
  simpa using by omega

/-- Characterisation of the page produced by Node::defrag on a page
satisfying the layout invariants. -/
theorem defrag_spec (p : Page)
    (hfs : freeStart p = HEADER_SIZE + KEY_SIZE * numKeys p)
    (hse : freeStart p ≤ freeEnd p)
    (hfe : freeEnd p ≤ PAGE_SIZE)
    (hreg : ∀ i, i < numKeys p → freeEnd p ≤ valueOffsetAt p i ∧
      valueOffsetAt p i + valueLenAt p i ≤ PAGE_SIZE)
    (hdisj : ∀ j, j < numKeys p → ∀ i, i < j →
      valueOffsetAt p i + valueLenAt p i ≤ valueOffsetAt p j ∨
      valueOffsetAt p j + valueLenAt p j ≤ valueOffsetAt p i) :
    DefragFacts p := by
  have eH : HEADER_SIZE = 14 := rfl
  have eK : KEY_SIZE = 16 := rfl
  have eP : PAGE_SIZE = 4096 := rfl
  have htot := dTotal_le p hreg hdisj
  have hfs14 : freeStart p = 14 + 16 * numKeys p := by rw [hfs, eH, eK]
  have hnfe_fs : freeStart p ≤ PAGE_SIZE - dTotal p := by omega
  have hfs_ge : 14 ≤ freeStart p := by omega
  have hqb : ∀ j, j ≤ 4 ∨ 10 ≤ j →
      byteAt (defrag p) j =
        byteAt (defragRewrite (writeBytes p (PAGE_SIZE - dTotal p) (dbuffer p))
          (dinfos p) (PAGE_SIZE - dTotal p)) j := by
    intro j hj
    rw [defrag_eq]
    unfold setFragmentedBytes setFirstFreeblock setFreeEnd
    rw [byteAt_setByte_of_ne _ _ _ _ (by omega),
      byteAt_writeU16_of_ne _ _ _ _ (by omega) (by omega),
      byteAt_writeU16_of_ne _ _ _ _ (by omega) (by omega)]
  have hfull : ∀ j, j ≤ 4 ∨ 10 ≤ j → j < PAGE_SIZE - dTotal p →
      (∀ x ∈ dinfos p, j ≠ getKeyPos x.1 + 12 ∧ j ≠ getKeyPos x.1 + 13) →
      byteAt (defrag p) j = byteAt p j := by
    intro j h1 h2 h3
    rw [hqb j h1, defragRewrite_byteAt _ _ _ _ h3]
    exact byteAt_writeBytes_of_lt _ _ _ _ h2
  have hread16 : ∀ off, off + 1 ≤ 4 ∨ 10 ≤ off →
      off + 1 < PAGE_SIZE - dTotal p →
      (∀ x ∈ dinfos p,
        (off ≠ getKeyPos x.1 + 12 ∧ off ≠ getKeyPos x.1 + 13) ∧
        (off + 1 ≠ getKeyPos x.1 + 12 ∧ off + 1 ≠ getKeyPos x.1 + 13)) →
      readU16 (defrag p) off = readU16 p off := by
    intro off h1 h2 h3
    unfold readU16
    rw [hfull off (by omega) (by omega) fun x hx => (h3 x hx).1,
      hfull (off + 1) (by omega) (by omega) fun x hx => (h3 x hx).2]
  have hpacked : ∀ s, s < dTotal p →
      byteAt (defrag p) (PAGE_SIZE - dTotal p + s) = (dbuffer p).getD s 0 := by
    intro s hs
    rw [hqb _ (Or.inr (by omega)),
      defragRewrite_byteAt _ _ _ _ ?_,
      byteAt_writeBytes_getD _ _ _ _ (by omega)
        (by rw [dbuffer_length]; omega)]
    · have hidx : PAGE_SIZE - dTotal p + s - (PAGE_SIZE - dTotal p) = s := by
        omega
      rw [hidx, Nat.mod_eq_of_lt (getD_lt_256 _ (dbuffer_lt_256 p) _)]
    · intro x hx
      have := dinfos_fst_lt p x hx
      simp only [getKeyPos_eq]
      omega
  refine ⟨?_, ?_, ?_, ?_, ?_, ?_, ?_, ?_, hpacked, ?_⟩
  · exact hread16 1 (by omega) (by omega) fun x hx => by
      have := dinfos_fst_lt p x hx
      simp only [getKeyPos_eq]
      omega
  · exact hread16 3 (by omega) (by omega) fun x hx => by
      have := dinfos_fst_lt p x hx
      simp only [getKeyPos_eq]
      omega
  · show readU16 (defrag p) 5 = PAGE_SIZE - dTotal p
    rw [defrag_eq]
    unfold setFragmentedBytes setFirstFreeblock setFreeEnd
    rw [readU16_setByte_of_ne _ _ _ _ (by omega) (by omega),
      readU16_writeU16_of_disjoint _ _ _ _ (by omega),
      readU16_writeU16_self _ _ _ (by omega)]
  · show readU16 (defrag p) 7 = 0
    rw [defrag_eq]
    unfold setFragmentedBytes setFirstFreeblock setFreeEnd
    rw [readU16_setByte_of_ne _ _ _ _ (by omega) (by omega),
      readU16_writeU16_self _ _ _ (by omega)]
  · show byteAt (defrag p) 9 = 0
    rw [defrag_eq]
    unfold setFragmentedBytes
    rw [byteAt_setByte_self]
  · intro i hi
    apply readU64_congr
    intro d hd
    apply hfull
    · simp only [getKeyPos_eq]
      omega
    · simp only [getKeyPos_eq]
      omega
    · intro x hx
      have := dinfos_fst_lt p x hx
      simp only [getKeyPos_eq]
      omega
  · intro i hi
    apply hread16
    · simp only [getKeyPos_eq]
      omega
    · simp only [getKeyPos_eq]
      omega
    · intro x hx
      have := dinfos_fst_lt p x hx
      simp only [getKeyPos_eq]
      omega
  · intro i hi
    have hsum : ((dinfos p).map fun x => x.2.2).sum = dTotal p := rfl
    have hvo := defragRewrite_voffAt (dinfos p)
      (writeBytes p (PAGE_SIZE - dTotal p) (dbuffer p))
      (PAGE_SIZE - dTotal p) (dinfos_pairwise_ne p) (by omega) i
      (by rw [dinfos_length]; exact hi)
    have hgi : (dinfos p).get ⟨i, by rw [dinfos_length]; exact hi⟩ =
        (i, valueOffsetAt p i, valueLenAt p i) := dinfos_get p _
    rw [hgi] at hvo
    have hvo2 : valueOffsetAt
        (defragRewrite (writeBytes p (PAGE_SIZE - dTotal p) (dbuffer p))
          (dinfos p) (PAGE_SIZE - dTotal p)) i =
        PAGE_SIZE - dTotal p + (((dinfos p).take i).map fun x => x.2.2).sum :=
      hvo
    rw [dinfos_take_map_len p i (le_of_lt hi)] at hvo2
    have hcc : valueOffsetAt (defrag p) i =
        valueOffsetAt
          (defragRewrite (writeBytes p (PAGE_SIZE - dTotal p) (dbuffer p))
            (dinfos p) (PAGE_SIZE - dTotal p)) i := by
      unfold valueOffsetAt readU16
      rw [hqb _ (Or.inr (by simp only [getKeyPos_eq]; omega)),
        hqb _ (Or.inr (by simp only [getKeyPos_eq]; omega))]
    rw [hcc, hvo2]
    rfl
  · intro i hi
    apply list_ext_getD
    · rw [readBytes_length, readBytes_length]
    · intro m hm
      rw [readBytes_length] at hm
      rw [readBytes_getD _ _ _ _ hm, readBytes_getD _ _ _ _ hm]
      have hsucc := sum_range_map_succ (fun t => valueLenAt p t) i
      have hle : ((List.range (i + 1)).map fun t => valueLenAt p t).sum ≤
          dTotal p := by
        rw [dTotal_eq]
        exact sum_range_map_le _ (by omega)
      have hsum_lt : ((List.range i).map fun t => valueLenAt p t).sum + m <
          dTotal p := by omega
      have hpos_eq : packedOffset p i + m =
          PAGE_SIZE - dTotal p +
            (((List.range i).map fun t => valueLenAt p t).sum + m) := by
        unfold packedOffset
        omega
      rw [hpos_eq, hpacked _ hsum_lt]
      have hgi : (dinfos p).get ⟨i, by rw [dinfos_length]; exact hi⟩ =
          (i, valueOffsetAt p i, valueLenAt p i) := dinfos_get p _
      have hflat := getD_flatMap_readBytes (dinfos p) p i
        (by rw [dinfos_length]; exact hi) m ?_
      · rw [hgi] at hflat
        rw [dinfos_take_map_len p i (le_of_lt hi)] at hflat
        exact hflat
      · rw [hgi]
        exact hm

theorem writeU16_eq_self (p : Page) (a x : Nat) (h : readU16 p a = x) :
    writeU16 p a x = p := by
  rw [← h]
  exact writeU16_readU16_self p a

theorem setByte_eq_self (p : Page) (i x : Nat) (h : byteAt p i = x) :
    setByte p i x = p := by
  rw [← h]
  exact setByte_byteAt_self p i

theorem sum_range_map_congr (f g : Nat → Nat) (n : Nat)
    (h : ∀ i, i < n → f i = g i) :
    ((List.range n).map f).sum = ((List.range n).map g).sum := by
  congr 1
  apply List.map_congr_left
  intro a ha
  exact h a (List.mem_range.mp ha)

/-- The binary-search loop is determined by the keys it probes. -/
theorem findLoop_congr (q r : Page) (k n : Nat)
    (h : ∀ i, i < n → keyAt q i = keyAt r i) :
    ∀ fuel low high, high ≤ n →
      findLoop q k low high fuel = findLoop r k low high fuel := by
  intro fuel
  induction fuel with
  | zero => intro low high _; rfl
  | succ f ih =>
    intro low high hh
    by_cases hlh : low < high
    · have hk := h ((low + high) / 2) (by omega)
      simp only [findLoop, hlh, if_true, hk]
      by_cases h1 : keyAt r ((low + high) / 2) = k
      · simp [h1]
      · simp only [h1, if_false]
        by_cases h2 : keyAt r ((low + high) / 2) < k
        · simp only [h2, if_true]
          exact ih _ _ hh
        · simp only [h2, if_false]
          exact ih _ _ (by omega)
    · simp [findLoop, hlh]

theorem find_le_key_idx_congr (q r : Page) (k : Nat)
    (hn : numKeys q = numKeys r)
    (h : ∀ i, i < numKeys r → keyAt q i = keyAt r i) :
    find_le_key_idx q k = find_le_key_idx r k := by
  unfold find_le_key_idx
  rw [hn]
  by_cases h0 : numKeys r = 0
  · simp [h0]
  · simp only [h0, if_false]
    exact findLoop_congr q r k (numKeys r) h _ 0 (numKeys r) (le_refl _)

/-- A successful binary search returns an index below the upper bound. -/
theorem findLoop_found_lt (p : Page) (k : Nat) :
    ∀ fuel low high, (findLoop p k low high fuel).2 = true →
      (findLoop p k low high fuel).1 < high := by
  intro fuel
  induction fuel with
  | zero => intro low high h; simp [findLoop] at h
  | succ f ih =>
    intro low high h
    by_cases hlh : low < high
    · by_cases h1 : keyAt p ((low + high) / 2) = k
      · have : findLoop p k low high (f + 1) = ((low + high) / 2, true) := by
          simp [findLoop, hlh, h1]
        rw [this]
        omega
      · by_cases h2 : keyAt p ((low + high) / 2) < k
        · have heq : findLoop p k low high (f + 1) =
              findLoop p k ((low + high) / 2 + 1) high f := by
            simp [findLoop, hlh, h1, h2]
          rw [heq] at h ⊢
          exact ih _ _ h
        · have heq : findLoop p k low high (f + 1) =
              findLoop p k low ((low + high) / 2) f := by
            simp [findLoop, hlh, h1, h2]
          rw [heq] at h ⊢
          have := ih _ _ h
          omega
    · have : findLoop p k low high (f + 1) = (low, false) := by
        simp [findLoop, hlh]
      rw [this] at h
      simp at h

theorem find_le_key_idx_found_lt (p : Page) (k : Nat)
    (h : (find_le_key_idx p k).2 = true) :
    (find_le_key_idx p k).1 < numKeys p := by
  unfold find_le_key_idx at h ⊢
  by_cases h0 : numKeys p = 0
  · simp [h0] at h
  · simp only [h0, if_false] at h ⊢
    exact findLoop_found_lt p k _ 0 (numKeys p) h

/-- The slot-rewrite pass is the identity when every slot already points at
its packed position. -/
theorem defragRewrite_id :
    ∀ (infos : List (Nat × Nat × Nat)) (p : Page) (pos : Nat),
      (∀ (j : Nat) (hj : j < infos.length),
        readU16 p (getKeyPos (infos.get ⟨j, hj⟩).1 + 12) =
          pos + ((infos.take j).map fun x => x.2.2).sum) →
      defragRewrite p infos pos = p
  | [], _, _, _ => rfl
  | (i, o, len) :: t, p, pos, h => by
    have h0 := h 0 (by simp)
    simp only [List.get, List.take_zero, List.map_nil, List.sum_nil,
      Nat.add_zero] at h0
    simp only [defragRewrite]
    rw [writeU16_eq_self p _ _ h0]
    apply defragRewrite_id t p (pos + len)
    intro j hj
    have hj1 := h (j + 1) (by simpa using hj)
    simp only [List.get, List.take_succ_cons, List.map_cons,
      List.sum_cons] at hj1
    rw [hj1]
    omega

theorem flatMap_congr_mem {α β : Type} (l : List α) (f g : α → List β)
    (h : ∀ a ∈ l, f a = g a) : l.flatMap f = l.flatMap g := by
  induction l with
  | nil => rfl
  | cons a t ih =>
    simp only [List.flatMap_cons]
    rw [h a (List.mem_cons_self _ _), ih fun b hb => h b (List.mem_cons_of_mem _ hb)]

theorem flatMap_map_comp {α β γ : Type} (f : α → β) (g : β → List γ) :
    ∀ l : List α, (l.map f).flatMap g = l.flatMap fun a => g (f a) := by
  intro l
  induction l with
  | nil => rfl
  | cons a t ih => simp only [List.map_cons, List.flatMap_cons, ih]

/-- C6: on a page satisfying the layout invariants (free_start tracks the
slot array, free_start ≤ free_end ≤ PAGE_SIZE, value regions inside
[free_end, PAGE_SIZE) and pairwise disjoint), defrag is idempotent on the
page bytes and preserves the result of get for every key. -/
theorem c6_defrag_idempotent_and_preserves_get (p : Page)
    (hfs : freeStart p = HEADER_SIZE + KEY_SIZE * numKeys p)
    (hse : freeStart p ≤ freeEnd p)
    (hfe : freeEnd p ≤ PAGE_SIZE)
    (hreg : ∀ i, i < numKeys p → freeEnd p ≤ valueOffsetAt p i ∧
      valueOffsetAt p i + valueLenAt p i ≤ PAGE_SIZE)
    (hdisj : ∀ j, j < numKeys p → ∀ i, i < j →
      valueOffsetAt p i + valueLenAt p i ≤ valueOffsetAt p j ∨
      valueOffsetAt p j + valueLenAt p j ≤ valueOffsetAt p i) :
    defrag (defrag p) = defrag p ∧ ∀ k, get (defrag p) k = get p k := by
  have F := defrag_spec p hfs hse hfe hreg hdisj
  have hTq : dTotal (defrag p) = dTotal p := by
    rw [dTotal_eq, dTotal_eq, F.nk]
    exact sum_range_map_congr _ _ _ fun i hi => F.vlen i hi
  constructor
  · have hbufq : dbuffer (defrag p) = dbuffer p := by
      rw [dbuffer, dbuffer, dinfos, dinfos, F.nk, flatMap_map_comp,
        flatMap_map_comp]
      apply flatMap_congr_mem
      intro a ha
      have hi := List.mem_range.mp ha
      show readBytes (defrag p) (valueOffsetAt (defrag p) a)
          (valueLenAt (defrag p) a) =
        readBytes p (valueOffsetAt p a) (valueLenAt p a)
      rw [F.voff a hi, F.vlen a hi]
      exact F.vbytes a hi
    have hbufq2 : dbuffer p =
        readBytes (defrag p) (PAGE_SIZE - dTotal p) (dTotal p) := by
      apply list_ext_getD
      · rw [dbuffer_length, readBytes_length]
      · intro m hm
        rw [dbuffer_length] at hm
        rw [readBytes_getD _ _ _ _ hm]
        exact (F.packed m hm).symm
    have hw : writeBytes (defrag p) (PAGE_SIZE - dTotal p) (dbuffer p) =
        defrag p := by
      rw [hbufq2]
      exact writeBytes_readBytes_self _ _ _
    have hrw : defragRewrite (defrag p) (dinfos (defrag p))
        (PAGE_SIZE - dTotal p) = defrag p := by
      apply defragRewrite_id
      intro j hj
      have hjn : j < numKeys p := by
        rw [dinfos_length, F.nk] at hj
        exact hj
      have hgi : (dinfos (defrag p)).get ⟨j, hj⟩ =
          (j, valueOffsetAt (defrag p) j, valueLenAt (defrag p) j) :=
        dinfos_get (defrag p) _
      rw [hgi]
      show readU16 (defrag p) (getKeyPos j + 12) = _
      have hvj : readU16 (defrag p) (getKeyPos j + 12) = packedOffset p j :=
        F.voff j hjn
      rw [hvj, dinfos_take_map_len (defrag p) j
        (by rw [F.nk]; exact le_of_lt hjn)]
      have hsums : ((List.range j).map fun t => valueLenAt (defrag p) t).sum =
          ((List.range j).map fun t => valueLenAt p t).sum :=
        sum_range_map_congr _ _ _ fun i hi => F.vlen i (by omega)
      rw [hsums]
      rfl
    have h3 : setFreeEnd (defrag p) (PAGE_SIZE - dTotal p) = defrag p :=
      writeU16_eq_self _ 5 _ F.fe
    have h4 : setFirstFreeblock (defrag p) 0 = defrag p :=
      writeU16_eq_self _ 7 _ F.ffb
    have h5 : setFragmentedBytes (defrag p) 0 = defrag p :=
      setByte_eq_self _ 9 _ F.frag
    rw [defrag_eq (defrag p), hTq, hbufq, hw, hrw, h3, h4, h5]
  · intro k
    have hfind := find_le_key_idx_congr (defrag p) p k F.nk
      fun i hi => F.key i hi
    simp only [get, hfind]
    by_cases hb : (find_le_key_idx p k).2 = true
    · have hlt := find_le_key_idx_found_lt p k hb
      simp only [hb, if_true]
      rw [F.voff _ hlt, F.vlen _ hlt, F.vbytes _ hlt]
    · simp only [Bool.not_eq_true] at hb
      simp [hb]

/-- Page with keys 10 and 30 and a freeblock left by deleting key 20, for
the defrag witness. -/
def c6page : Page :=
  delPage (insOk (insOk (insOk newPage 10 [1, 2, 3, 4, 5]) 20 [6, 7, 8, 9])
    30 [11, 12, 13, 14, 15, 16]) 20

/-- Witness for C6 on a fragmented page with two live keys. -/
theorem c6_defrag_idempotent_and_preserves_get_witness :
    (freeStart c6page = HEADER_SIZE + KEY_SIZE * numKeys c6page ∧
     freeStart c6page ≤ freeEnd c6page ∧
     freeEnd c6page ≤ PAGE_SIZE ∧
     (∀ i, i < numKeys c6page → freeEnd c6page ≤ valueOffsetAt c6page i ∧
       valueOffsetAt c6page i + valueLenAt c6page i ≤ PAGE_SIZE) ∧
     (∀ j, j < numKeys c6page → ∀ i, i < j →
       valueOffsetAt c6page i + valueLenAt c6page i ≤ valueOffsetAt c6page j ∨
       valueOffsetAt c6page j + valueLenAt c6page j ≤
         valueOffsetAt c6page i)) ∧
    (defrag (defrag c6page) = defrag c6page ∧
     ∀ k, get (defrag c6page) k = get c6page k) :=
  ⟨⟨by decide, by decide, by decide, by decide, by decide⟩,
    c6_defrag_idempotent_and_preserves_get c6page (by decide) (by decide)
      (by decide) (by decide) (by decide)⟩

/-! Lemmas for the freeblock chain of delete (claim C3). -/

/-- On a sorted slot array the search lands exactly on a present key. -/
theorem find_le_key_idx_exact (p : Page) (k i : Nat)
    (hs : ∀ a, a + 1 < numKeys p → keyAt p a < keyAt p (a + 1))
    (hi : i < numKeys p) (hk : keyAt p i = k) :
    find_le_key_idx p k = (i, true) := by
  have hs' : ∀ a b, a < b → b < numKeys p → keyAt p a < keyAt p b :=
    fun a b hab hb => keyAt_lt_of_lt p (numKeys p) hs hab hb
  have hn : ¬ numKeys p = 0 := by omega
  have hdef : find_le_key_idx p k =
      findLoop p k 0 (numKeys p) (numKeys p + 1) := by
    simp [find_le_key_idx, hn]
  have hmaster := findLoop_spec p k (numKeys p) hs' (numKeys p + 1) 0
    (numKeys p) (by omega) (le_refl _) (by omega)
    (fun a ha => by omega) (fun a hge hlt => by omega)
  cases hb : (findLoop p k 0 (numKeys p) (numKeys p + 1)).2 with
  | true =>
    obtain ⟨hlt, hkey⟩ := hmaster.1 hb
    have hidx : (findLoop p k 0 (numKeys p) (numKeys p + 1)).1 = i := by
      rcases Nat.lt_trichotomy
        (findLoop p k 0 (numKeys p) (numKeys p + 1)).1 i with h | h | h
      · have := hs' _ _ h hi
        rw [hkey, hk] at this
        omega
      · exact h
      · have := hs' _ _ h hlt
        rw [hkey, hk] at this
        omega
    rw [hdef, Prod.ext_iff]
    exact ⟨hidx, hb⟩
  | false =>
    obtain ⟨_, hlo, hhi⟩ := hmaster.2 hb
    rcases Nat.lt_or_ge i (findLoop p k 0 (numKeys p) (numKeys p + 1)).1
      with h | h
    · have := hlo i h
      omega
    · have := hhi i h hi
      omega

/-- Every record after the head of a separated chain starts past the
head's block. -/
theorem chain_sep_all :
    ∀ (L : List (Nat × Nat)) (c s : Nat),
      List.Chain' (fun a b => a.1 + a.2 ≤ b.1) ((c, s) :: L) →
      ∀ x ∈ L, c + s ≤ x.1
  | [], _, _, _, x, hx => by simp at hx
  | (c2, s2) :: t, c, s, h, x, hx => by
    rw [List.chain'_cons] at h
    obtain ⟨h1, h2⟩ := h
    rcases List.mem_cons.mp hx with rfl | hxt
    · exact h1
    · have := chain_sep_all t c2 s2 h2 x hxt
      omega

/-- A separated chain of blocks of size at least 4 inside the page is
short. -/
theorem chain_sep_length :
    ∀ (L : List (Nat × Nat)) (lo : Nat),
      List.Chain' (fun a b => a.1 + a.2 ≤ b.1) L →
      (∀ x ∈ L, 4 ≤ x.2 ∧ x.1 + x.2 ≤ PAGE_SIZE) →
      (∀ x ∈ L, lo ≤ x.1) →
      lo ≤ PAGE_SIZE + 4 →
      lo + 4 * L.length ≤ PAGE_SIZE + 4
  | [], lo, _, _, _, hlo => by simpa using hlo
  | (c, s) :: t, lo, hchain, hb, hlo, hlo4 => by
    have hc := hb (c, s) (List.mem_cons_self _ _)
    have hcl := hlo (c, s) (List.mem_cons_self _ _)
    have hall := chain_sep_all t c s hchain
    have htail : List.Chain' (fun a b => a.1 + a.2 ≤ b.1) t := hchain.tail
    have ih := chain_sep_length t (c + 4) htail
      (fun x hx => hb x (List.mem_cons_of_mem _ hx))
      (fun x hx => by have := hall x hx; have := (hb x (List.mem_cons_of_mem _ hx)).1; omega)
      (by have : (4 : Nat) ≤ s := hc.1; have := hc.2; omega)
    simp only [List.length_cons]
    omega

theorem isChain_nil (p : Page) (off : Nat) : isChain p off [] ↔ off = 0 := by
  simp [isChain, chainMatches]

theorem isChain_cons (p : Page) (off c s : Nat) (t : List (Nat × Nat)) :
    isChain p off ((c, s) :: t) ↔
      off = c ∧ readU16 p (c + 2) = s ∧ isChain p (readU16 p c) t := by
  simp [isChain, chainMatches, and_assoc]

/-- A chain reading only depends on the bytes of the chain headers. -/
theorem isChain_congr :
    ∀ (L : List (Nat × Nat)) (q r : Page) (off : Nat),
      (∀ x ∈ L, ∀ d, d < 4 → byteAt q (x.1 + d) = byteAt r (x.1 + d)) →
      isChain r off L → isChain q off L
  | [], q, r, off, _, h => by
    rw [isChain_nil] at h ⊢
    exact h
  | (c, s) :: t, q, r, off, hb, h => by
    rw [isChain_cons] at h ⊢
    obtain ⟨hoc, hsz, hrest⟩ := h
    have e0 : byteAt q (c + 0) = byteAt r (c + 0) :=
      hb (c, s) (List.mem_cons_self _ _) 0 (by omega)
    have e1 : byteAt q (c + 1) = byteAt r (c + 1) :=
      hb (c, s) (List.mem_cons_self _ _) 1 (by omega)
    have e2 : byteAt q (c + 2) = byteAt r (c + 2) :=
      hb (c, s) (List.mem_cons_self _ _) 2 (by omega)
    have e3 : byteAt q (c + 2 + 1) = byteAt r (c + 2 + 1) :=
      hb (c, s) (List.mem_cons_self _ _) 3 (by omega)
    have hnext : readU16 q c = readU16 r c := by
      unfold readU16
      have e0' : byteAt q c = byteAt r c := e0
      rw [e0', e1]
    have hsz' : readU16 q (c + 2) = readU16 r (c + 2) := by
      unfold readU16
      rw [e2, e3]
    refine ⟨hoc, by rw [hsz', hsz], ?_⟩
    rw [hnext]
    exact isChain_congr t q r (readU16 r c)
      (fun x hx => hb x (List.mem_cons_of_mem _ hx)) hrest

/-- A separated chain with nonempty blocks has strictly ascending
offsets. -/
theorem chain_sep_imp_lt :
    ∀ L : List (Nat × Nat),
      List.Chain' (fun a b => a.1 + a.2 ≤ b.1) L →
      (∀ x ∈ L, 1 ≤ x.2) →
      List.Chain' (fun a b : Nat × Nat => a.1 < b.1) L
  | [], _, _ => List.chain'_nil
  | [_], _, _ => List.chain'_singleton _
  | a :: b :: t, h, hsz => by
    rw [List.chain'_cons] at h ⊢
    obtain ⟨h1, h2⟩ := h
    refine ⟨?_, chain_sep_imp_lt (b :: t) h2
      fun x hx => hsz x (List.mem_cons_of_mem _ hx)⟩
    have := hsz a (List.mem_cons_self _ _)
    omega

/-- Inserting the freed block keeps the chain offsets strictly
ascending. -/
theorem insertFB_chain_lt (o v : Nat) (hv : 4 ≤ v) :
    ∀ L : List (Nat × Nat),
      List.Chain' (fun a b => a.1 + a.2 ≤ b.1) L →
      (∀ x ∈ L, 4 ≤ x.2) →
      (∀ x ∈ L, x.1 + x.2 ≤ o ∨ o + v ≤ x.1) →
      List.Chain' (fun a b : Nat × Nat => a.1 < b.1) (insertFB (o, v) L)
  | [], _, _, _ => by simp [insertFB]
  | (c, s) :: t, hsep, hsz, hdisj => by
    have hs4 : 4 ≤ s := (hsz (c, s) (List.mem_cons_self _ _))
    have hcd := hdisj (c, s) (List.mem_cons_self _ _)
    by_cases hc : c < o
    · have he : insertFB (o, v) ((c, s) :: t) = (c, s) :: insertFB (o, v) t := by
        simp [insertFB, hc]
      rw [he, List.chain'_cons']
      refine ⟨?_, insertFB_chain_lt o v hv t hsep.tail
        (fun x hx => hsz x (List.mem_cons_of_mem _ hx))
        (fun x hx => hdisj x (List.mem_cons_of_mem _ hx))⟩
      intro y hy
      cases t with
      | nil =>
        simp [insertFB] at hy
        subst hy
        exact hc
      | cons b t2 =>
        by_cases hb : b.1 < o
        · rw [show insertFB (o, v) (b :: t2) = b :: insertFB (o, v) t2 from by
            simp [insertFB, hb]] at hy
          simp at hy
          have h2 : c + s ≤ b.1 := chain_sep_all (b :: t2) c s hsep b
            (List.mem_cons_self _ _)
          subst hy
          show c < b.1
          omega
        · rw [show insertFB (o, v) (b :: t2) = (o, v) :: b :: t2 from by
            simp [insertFB, hb]] at hy
          simp at hy
          subst hy
          exact hc
    · have he : insertFB (o, v) ((c, s) :: t) = (o, v) :: (c, s) :: t := by
        simp [insertFB, hc]
      rw [he, List.chain'_cons]
      constructor
      · show o < c
        rcases hcd with h | h <;> omega
      · exact chain_sep_imp_lt _ hsep fun x hx => by
          have := hsz x hx
          omega

theorem fbWalkDel_step (p1 : Page) (o c : Nat) (prevp : Option Nat)
    (fuel : Nat) (h1 : c ≠ 0) (h2 : c < o) :
    fbWalkDel p1 o prevp c (fuel + 1) =
      fbWalkDel p1 o (some c) (readU16 p1 c) fuel := by
  simp [fbWalkDel, h1, h2]

theorem fbWalkDel_stop (p1 : Page) (o c : Nat) (prevp : Option Nat)
    (fuel : Nat) (h : ¬(c ≠ 0 ∧ c < o)) :
    fbWalkDel p1 o prevp c (fuel + 1) = (prevp, c) := by
  simp only [fbWalkDel, if_neg h]

theorem delTail_step (p1 : Page) (o v c : Nat) (prevp : Option Nat)
    (fuel : Nat) (h1 : c ≠ 0) (h2 : c < o) :
    delTail p1 o v prevp c (fuel + 1) =
      delTail p1 o v (some c) (readU16 p1 c) fuel := by
  unfold delTail
  rw [fbWalkDel_step p1 o c prevp fuel h1 h2]

/-- Two pages agreeing on two adjacent bytes read the same u16 there. -/
theorem readU16_congr2 (q r : Page) (off : Nat)
    (h0 : byteAt q off = byteAt r off)
    (h1 : byteAt q (off + 1) = byteAt r (off + 1)) :
    readU16 q off = readU16 r off := by
  unfold readU16
  rw [h0, h1]

/-- Bytes of pop_key_at's result outside the shifted slot region and the
rewritten num_keys/free_start header fields agree with the input page. -/
theorem pop_key_at_frame (p : Page) (idx j : Nat)
    (hlen : getKeyPos idx + KEY_SIZE ≤ freeStart p)
    (hj : (5 ≤ j ∧ j < getKeyPos idx) ∨ freeStart p ≤ j) :
    byteAt (pop_key_at p idx).2 j = byteAt p j := by
  have e : getKeyPos idx = 14 + 16 * idx := rfl
  have eK : KEY_SIZE = 16 := rfl
  simp only [pop_key_at]
  unfold setNumKeys setFreeStart
  rw [byteAt_writeU16_of_ne _ _ _ _ (by omega) (by omega),
    byteAt_writeU16_of_ne _ _ _ _ (by omega) (by omega)]
  unfold copyWithin
  rcases hj with ⟨_, hjlt⟩ | hjge
  · exact byteAt_writeBytes_of_lt _ _ _ _ hjlt
  · apply byteAt_writeBytes_of_ge
    rw [readBytes_length]
    omega

/-- Main lemma for claim C3: writing the freed block into the chain via
the walk of delete_at_idx inserts it at its sorted position, records its
size and successor, and leaves all other bytes outside the patched link
untouched. -/
theorem delTail_spec (p1 : Page) (o v : Nat)
    (hov : o + v ≤ PAGE_SIZE) (hv4 : 4 ≤ v) (ho14 : 14 ≤ o) :
    ∀ (L : List (Nat × Nat)) (start ptr : Nat) (prevp : Option Nat)
      (fuel : Nat),
      L.length < fuel →
      isChain p1 start L →
      (∀ x ∈ L, 4 ≤ x.2 ∧ 14 ≤ x.1 ∧ x.1 + x.2 ≤ PAGE_SIZE) →
      List.Chain' (fun a b => a.1 + a.2 ≤ b.1) L →
      (∀ x ∈ L, x.1 + x.2 ≤ o ∨ o + v ≤ x.1) →
      7 ≤ ptr →
      readU16 p1 ptr = start →
      (ptr + 2 ≤ o ∨ o + 4 ≤ ptr) →
      (∀ x ∈ L, ptr + 2 ≤ x.1 ∨ x.1 + 4 ≤ ptr) →
      (match prevp with
       | none => ptr = 7
       | some pv => ptr = pv) →
      isChain (delTail p1 o v prevp start fuel)
          (readU16 (delTail p1 o v prevp start fuel) ptr)
          (insertFB (o, v) L) ∧
        readU16 (delTail p1 o v prevp start fuel) (o + 2) = v ∧
        readU16 (delTail p1 o v prevp start fuel) o = succOffset o L ∧
        (∀ j, (j < o ∨ o + 4 ≤ j) →
          (∀ x ∈ L, j < x.1 ∨ x.1 + 2 ≤ j) →
          (j < ptr ∨ ptr + 2 ≤ j) →
          byteAt (delTail p1 o v prevp start fuel) j = byteAt p1 j) := by
  intro L
  induction L with
  | nil =>
    intro start ptr prevp fuel hfuel hchain _ _ _ hptr7 hptrv hptro _ hprev
    have eP : PAGE_SIZE = 4096 := rfl
    rw [isChain_nil] at hchain
    subst hchain
    cases fuel with
    | zero => omega
    | succ f =>
      have hw : fbWalkDel p1 o prevp 0 (f + 1) = (prevp, 0) :=
        fbWalkDel_stop p1 o 0 prevp f (by simp)
      have hp3 : delTail p1 o v prevp 0 (f + 1) =
          writeU16 (write_freeblock p1 o 0 v) ptr o := by
        unfold delTail
        rw [hw]
        cases prevp with
        | none =>
          simp only at hprev
          rw [hprev]
          rfl
        | some pv =>
          simp only at hprev
          rw [hprev]
      rw [hp3]
      have hptr_read : readU16 (writeU16 (write_freeblock p1 o 0 v) ptr o)
          ptr = o := readU16_writeU16_self _ _ _ (by omega)
      have hsize : readU16 (writeU16 (write_freeblock p1 o 0 v) ptr o)
          (o + 2) = v := by
        rw [readU16_writeU16_of_disjoint _ _ _ _ (by omega)]
        unfold write_freeblock
        exact readU16_writeU16_self _ _ _ (by omega)
      have hnext : readU16 (writeU16 (write_freeblock p1 o 0 v) ptr o) o =
          0 := by
        rw [readU16_writeU16_of_disjoint _ _ _ _ (by omega)]
        unfold write_freeblock
        rw [readU16_writeU16_of_disjoint _ _ _ _ (by omega)]
        exact readU16_writeU16_self _ _ _ (by omega)
      refine ⟨?_, hsize, by simpa [succOffset] using hnext, ?_⟩
      · rw [hptr_read]
        simp only [insertFB]
        rw [isChain_cons, isChain_nil]
        exact ⟨rfl, hsize, hnext⟩
      · intro j hj _ hjp
        unfold write_freeblock
        rw [byteAt_writeU16_of_ne _ _ _ _ (by omega) (by omega),
          byteAt_writeU16_of_ne _ _ _ _ (by omega) (by omega),
          byteAt_writeU16_of_ne _ _ _ _ (by omega) (by omega)]
  | cons hd t ih =>
    intro start ptr prevp fuel hfuel hchain hL hsep hdisj hptr7 hptrv hptro
      hptrL hprev
    obtain ⟨c, s⟩ := hd
    rw [isChain_cons] at hchain
    obtain ⟨hstart, hsz, hrest⟩ := hchain
    rw [hstart] at hptrv ⊢
    have hc := hL (c, s) (List.mem_cons_self _ _)
    have hcptr : ptr + 2 ≤ c ∨ c + 4 ≤ ptr := hptrL (c, s) (List.mem_cons_self _ _)
    have hcd := hdisj (c, s) (List.mem_cons_self _ _)
    have eP : PAGE_SIZE = 4096 := rfl
    cases fuel with
    | zero => simp at hfuel
    | succ f =>
      by_cases hco : c < o
      · have hcne : c ≠ 0 := by omega
        have hstep := delTail_step p1 o v c prevp f hcne hco
        have hcso : c + s ≤ o := by
          rcases hcd with h | h
          · exact h
          · omega
        have hIH := ih (readU16 p1 c) c (some c) f
          (by simp at hfuel; omega) hrest
          (fun x hx => hL x (List.mem_cons_of_mem _ hx))
          hsep.tail
          (fun x hx => hdisj x (List.mem_cons_of_mem _ hx))
          (by omega) rfl (by omega)
          (fun x hx => by
            have := chain_sep_all t c s hsep x hx
            omega)
          rfl
        obtain ⟨hA, hB, hC, hD⟩ := hIH
        rw [hstep]
        have hins : insertFB (o, v) ((c, s) :: t) =
            (c, s) :: insertFB (o, v) t := by
          simp [insertFB, hco]
        have hsucc : succOffset o ((c, s) :: t) = succOffset o t := by
          simp [succOffset, hco]
        have hptr_read : readU16 (delTail p1 o v (some c) (readU16 p1 c) f)
            ptr = c := by
          rw [readU16_congr2 _ p1 ptr
            (hD ptr (by omega)
              (fun x hx => by
                have := hptrL x (List.mem_cons_of_mem _ hx)
                omega)
              (by omega))
            (hD (ptr + 1) (by omega)
              (fun x hx => by
                have := hptrL x (List.mem_cons_of_mem _ hx)
                omega)
              (by omega))]
          exact hptrv
        have hsz' : readU16 (delTail p1 o v (some c) (readU16 p1 c) f)
            (c + 2) = s := by
          rw [readU16_congr2 _ p1 (c + 2)
            (hD (c + 2) (by omega)
              (fun x hx => by
                have := chain_sep_all t c s hsep x hx
                have := (hL x (List.mem_cons_of_mem _ hx)).1
                omega)
              (by omega))
            (hD (c + 2 + 1) (by omega)
              (fun x hx => by
                have := chain_sep_all t c s hsep x hx
                have := (hL x (List.mem_cons_of_mem _ hx)).1
                omega)
              (by omega))]
          exact hsz
        refine ⟨?_, hB, ?_, ?_⟩
        · rw [hins, hptr_read, isChain_cons]
          exact ⟨rfl, hsz', hA⟩
        · rw [hsucc]
          exact hC
        · intro j hjo hjL hjp
          exact hD j hjo (fun x hx => hjL x (List.mem_cons_of_mem _ hx))
            (hjL (c, s) (List.mem_cons_self _ _))
      · have hw : fbWalkDel p1 o prevp c (f + 1) = (prevp, c) :=
          fbWalkDel_stop p1 o c prevp f (fun h => hco h.2)
        have hp3 : delTail p1 o v prevp c (f + 1) =
            writeU16 (write_freeblock p1 o c v) ptr o := by
          unfold delTail
          rw [hw]
          cases prevp with
          | none =>
            have hprev' : ptr = 7 := hprev
            rw [hprev']
            rfl
          | some pv =>
            have hprev' : ptr = pv := hprev
            rw [hprev']
        have hoc : o + 4 ≤ c := by
          rcases hcd with h | h <;> omega
        have halltail : ∀ x ∈ t, o + 4 ≤ x.1 := by
          intro x hx
          have h1 := chain_sep_all t c s hsep x hx
          omega
        rw [hp3]
        have hins : insertFB (o, v) ((c, s) :: t) = (o, v) :: (c, s) :: t := by
          simp [insertFB, hco]
        have hsucc : succOffset o ((c, s) :: t) = c := by
          simp [succOffset, hco]
        have hptr_read : readU16 (writeU16 (write_freeblock p1 o c v) ptr o)
            ptr = o := readU16_writeU16_self _ _ _ (by omega)
        have hsize : readU16 (writeU16 (write_freeblock p1 o c v) ptr o)
            (o + 2) = v := by
          rw [readU16_writeU16_of_disjoint _ _ _ _ (by omega)]
          unfold write_freeblock
          exact readU16_writeU16_self _ _ _ (by omega)
        have hnext : readU16 (writeU16 (write_freeblock p1 o c v) ptr o) o =
            c := by
          rw [readU16_writeU16_of_disjoint _ _ _ _ (by omega)]
          unfold write_freeblock
          rw [readU16_writeU16_of_disjoint _ _ _ _ (by omega)]
          exact readU16_writeU16_self _ _ _ (by omega)
        have hchain_cong : isChain (writeU16 (write_freeblock p1 o c v) ptr o)
            c ((c, s) :: t) := by
          apply isChain_congr ((c, s) :: t) _ p1 c ?_ ?_
          · intro x hx d hd
            have hx4 : o + 4 ≤ x.1 := by
              rcases List.mem_cons.mp hx with heq | hxt
              · rw [heq]
                exact hoc
              · exact halltail x hxt
            have hpx := hptrL x hx
            unfold write_freeblock
            rw [byteAt_writeU16_of_ne _ _ _ _ (by omega) (by omega),
              byteAt_writeU16_of_ne _ _ _ _ (by omega) (by omega),
              byteAt_writeU16_of_ne _ _ _ _ (by omega) (by omega)]
          · rw [isChain_cons]
            exact ⟨rfl, hsz, hrest⟩
        refine ⟨?_, hsize, ?_, ?_⟩
        · rw [hins, hptr_read, isChain_cons]
          refine ⟨rfl, hsize, ?_⟩
          rw [hnext]
          exact hchain_cong
        · rw [hsucc]
          exact hnext
        · intro j hjo _ hjp
          unfold write_freeblock
          rw [byteAt_writeU16_of_ne _ _ _ _ (by omega) (by omega),
            byteAt_writeU16_of_ne _ _ _ _ (by omega) (by omega),
            byteAt_writeU16_of_ne _ _ _ _ (by omega) (by omega)]

/-! Theorems for the concrete claims. -/

/-- C1: on a page where key 1 is present with value [7, 7], insert(1, [9])
does not replace the value: it reaches the not-yet-implemented todo branch
of Node::insert (a panic) with the page untouched, instead of freeing the
old value, allocating the new one, updating the slot and returning the
previous pair as the claim requires. -/
theorem c1_replace_reaches_todo_branch :
    get c1page 1 = some [7, 7] ∧
    insert c1page 1 [9] = InsertResult.unimplementedReplace c1page := by
  decide

/-- The first-fit walk on an empty chain finds nothing. -/
theorem insertFbLoop_chain_end (p : Page) (idx key : Nat) (value : List Nat)
    (vlen : Nat) (prev : Option Nat) (fuel : Nat) :
    insertFbLoop p idx key value vlen prev 0 fuel = none := by
  cases fuel <;> rfl

/-- Inserting any absent-key value of length 4066 into a fresh page
reaches the post-defragmentation internal error of Node::insert. -/
theorem insert_newPage_len4066_internal_error (v : List Nat)
    (hlen : v.length = 4066) :
    insert newPage 1 v = InsertResult.internalError (defrag newPage) := by
  have h1 : find_le_key_idx newPage 1 = (0, false) := by decide
  have h2 : unallocated_space newPage = 4082 := by decide
  have h3 : free_space newPage = 4082 := by decide
  have h4 : firstFreeblock newPage = 0 := by decide
  have h5 : unallocated_space (defrag newPage) = 4082 := by decide
  unfold insert
  simp only [h1, h2, h3, h4, h5, hlen, insertFbLoop_chain_end, KEY_SIZE]
  norm_num

/-- C2: a fresh page has free_space = 4082 and a value of length 4066 has
16 + value.len = 4082 ≤ free_space, so by the claim the insert of key 1
(not present) must succeed; instead, because both allocation checks of
Node::insert use a strict inequality, the insert falls through the fast
path, the error check, and the empty freeblock chain, defragments, fails
the retried strict fast-path check and reaches the fatal internal-error
branch (the explicit panic), which the claim asserts is unreachable. -/
theorem c2_exact_fit_hits_internal_error :
    numKeys newPage = 0 ∧
    free_space newPage = 4082 ∧
    KEY_SIZE + (List.replicate 4066 (7 : Nat)).length = 4082 ∧
    isInternalError (insert newPage 1 (List.replicate 4066 7)) = true := by
  refine ⟨by decide, by decide, ?_, ?_⟩
  · rw [List.length_replicate]; rfl
  · rw [insert_newPage_len4066_internal_error (List.replicate 4066 7)
      (List.length_replicate 4066 7)]
    rfl

/-- C5: c5page satisfies the §3 invariants (empty sorted slot array,
free_start = HEADER_SIZE + 16·num_keys, HEADER_SIZE ≤ free_start ≤
free_end ≤ PAGE_SIZE, a strictly ascending disjoint freeblock chain of
sizes ≥ 4 inside the payload region), yet insert(101, [7; 16]) succeeds
via the freeblock path and leaves free_start = 30 > free_end = 14,
violating the invariant the claim asserts of every successful insert. -/
theorem c5_successful_insert_breaks_header_bounds :
    (numKeys c5page = 0 ∧
     freeStart c5page = HEADER_SIZE ∧
     freeEnd c5page = HEADER_SIZE ∧
     isChain c5page (firstFreeblock c5page) [(14, 16), (40, 32)]) ∧
    isOk c5result = true ∧
    freeStart (resultPage c5result) = 30 ∧
    freeEnd (resultPage c5result) = 14 := by
  decide

/-- C7 counterexample: after insert(1, [1; 14]) at offset 4082 and
delete(1), no freeblock exists (the delete takes the free_end boundary
path, first_freeblock stays 0), and the subsequent insert(2, [2; 5])
places its value at 4091, not at the former value offset 4082 as the
claim states. -/
theorem c7_delete_takes_boundary_path_no_freeblock :
    valueOffsetAt c7pageA 0 = 4082 ∧
    firstFreeblock c7pageB = 0 ∧
    freeEnd c7pageB = PAGE_SIZE ∧
    numKeys c7pageC = 1 ∧
    valueOffsetAt c7pageC 0 = 4091 ∧
    ¬ valueOffsetAt c7pageC 0 = 4082 := by
  decide

/-- C7 amended: on a fresh page, insert(1, [1; 14]) places the value at
offset 4082 = free_end; delete(1) therefore takes the boundary path of the
Free policy — free_end returns to PAGE_SIZE and no freeblock or
fragmentation is created — and the subsequent insert(2, [2; 5]) allocates
from the high end at offset PAGE_SIZE − 5 = 4091, after which get(2)
returns [2; 5]. -/
theorem c7_amended_boundary_reclaim_then_fast_path :
    valueOffsetAt c7pageA 0 = 4082 ∧
    freeEnd c7pageA = 4082 ∧
    firstFreeblock c7pageB = 0 ∧
    fragmentedBytes c7pageB = 0 ∧
    freeEnd c7pageB = PAGE_SIZE ∧
    valueOffsetAt c7pageC 0 = PAGE_SIZE - 5 ∧
    get c7pageC 2 = some (List.replicate 5 2) := by
  decide

/-- C9: inserting (1, ab), (2, cd), (3, ef) and deleting keys 1, 2, 3 in
order leaves fragmented_bytes = 4: the first two deletes free 2-byte
values away from the free_end boundary (each adds 2 to fragmented_bytes
with saturating accumulation), while the delete of key 3 finds its value
at free_end = 4090 and takes the boundary path, advancing free_end to
4092 without touching fragmented_bytes. -/
theorem c9_fragmented_bytes_after_three_deletes :
    fragmentedBytes c9page4 = 2 ∧
    fragmentedBytes c9page5 = 4 ∧
    freeEnd c9page5 = 4090 ∧
    valueOffsetAt c9page5 0 = 4090 ∧
    fragmentedBytes c9page6 = 4 ∧
    freeEnd c9page6 = 4092 ∧
    firstFreeblock c9page6 = 0 ∧
    numKeys c9page6 = 0 := by
  decide

/-- C3: deleting a present key whose value region does not start at
free_end and has length at least FREEBLOCK_SIZE writes a freeblock header
at the freed value's offset o: its size field is the value length, its
next field is the offset of the first freeblock beyond o (0 when none),
the block is linked into the chain starting at first_freeblock (the walk
patches the predecessor's next field, or first_freeblock itself when the
new block becomes the head), and the resulting chain offsets are strictly
ascending. -/
theorem c3_delete_links_freeblock (p : Page) (k i : Nat)
    (L : List (Nat × Nat))
    (hsorted : ∀ a, a + 1 < numKeys p → keyAt p a < keyAt p (a + 1))
    (hi : i < numKeys p) (hk : keyAt p i = k)
    (hfs : freeStart p = HEADER_SIZE + KEY_SIZE * numKeys p)
    (hfse : freeStart p ≤ freeEnd p)
    (ho : valueOffsetAt p i ≠ freeEnd p)
    (hv4 : FREEBLOCK_SIZE ≤ valueLenAt p i)
    (hoe : freeEnd p ≤ valueOffsetAt p i)
    (hov : valueOffsetAt p i + valueLenAt p i ≤ PAGE_SIZE)
    (hchain : isChain p (firstFreeblock p) L)
    (hLb : ∀ x ∈ L, FREEBLOCK_SIZE ≤ x.2 ∧ freeEnd p ≤ x.1 ∧
      x.1 + x.2 ≤ PAGE_SIZE)
    (hsep : List.Chain' (fun a b => a.1 + a.2 ≤ b.1) L)
    (hdisj : ∀ x ∈ L, x.1 + x.2 ≤ valueOffsetAt p i ∨
      valueOffsetAt p i + valueLenAt p i ≤ x.1) :
    isChain (delete p k).1 (firstFreeblock (delete p k).1)
        (insertFB (valueOffsetAt p i, valueLenAt p i) L) ∧
      readU16 (delete p k).1 (valueOffsetAt p i + 2) = valueLenAt p i ∧
      readU16 (delete p k).1 (valueOffsetAt p i) =
        succOffset (valueOffsetAt p i) L ∧
      List.Chain' (fun a b : Nat × Nat => a.1 < b.1)
        (insertFB (valueOffsetAt p i, valueLenAt p i) L) := by
  have eP : PAGE_SIZE = 4096 := rfl
  have eF : FREEBLOCK_SIZE = 4 := rfl
  have hfs' : freeStart p = 14 + 16 * numKeys p := by
    rw [hfs]
    rfl
  have hgp : getKeyPos i = 14 + 16 * i := rfl
  set o := valueOffsetAt p i with hodef
  set v := valueLenAt p i with hvdef
  have ho14 : 14 ≤ o := by omega
  have hfind : find_le_key_idx p k = (i, true) :=
    find_le_key_idx_exact p k i hsorted hi hk
  have hlen : getKeyPos i + KEY_SIZE ≤ freeStart p := by
    have eK : KEY_SIZE = 16 := rfl
    omega
  have hfrB : ∀ j, freeStart p ≤ j →
      byteAt (pop_key_at p i).2 j = byteAt p j :=
    fun j hj => pop_key_at_frame p i j hlen (Or.inr hj)
  have hfe1 : freeEnd (pop_key_at p i).2 = freeEnd p :=
    readU16_congr2 _ p 5
      (pop_key_at_frame p i 5 hlen (Or.inl ⟨by omega, by omega⟩))
      (pop_key_at_frame p i 6 hlen (Or.inl ⟨by omega, by omega⟩))
  have hffb1 : firstFreeblock (pop_key_at p i).2 = firstFreeblock p :=
    readU16_congr2 _ p 7
      (pop_key_at_frame p i 7 hlen (Or.inl ⟨by omega, by omega⟩))
      (pop_key_at_frame p i 8 hlen (Or.inl ⟨by omega, by omega⟩))
  have ho' : ¬((pop_key_at p i).1.2.1 = freeEnd (pop_key_at p i).2) := by
    rw [show (pop_key_at p i).1.2.1 = o from rfl, hfe1]
    exact ho
  have hv' : ¬((pop_key_at p i).1.2.2 < FREEBLOCK_SIZE) := by
    rw [show (pop_key_at p i).1.2.2 = v from rfl]
    omega
  have hbranch : (delete_at_idx p i).2 =
      delTail (pop_key_at p i).2 o v none
        (firstFreeblock (pop_key_at p i).2) PAGE_SIZE := by
    simp only [delete_at_idx]
    rw [if_neg ho', if_neg hv']
    rfl
  have hq : (delete p k).1 =
      delTail (pop_key_at p i).2 o v none
        (firstFreeblock (pop_key_at p i).2) PAGE_SIZE := by
    have hd1 : delete p k =
        ((delete_at_idx p i).2, some (delete_at_idx p i).1) := by
      unfold delete
      rw [hfind]
      rfl
    rw [hd1]
    exact hbranch
  have hchain1 : isChain (pop_key_at p i).2
      (firstFreeblock (pop_key_at p i).2) L := by
    rw [hffb1]
    refine isChain_congr L _ p (firstFreeblock p) ?_ hchain
    intro x hx d hd
    have hx1 := (hLb x hx).2.1
    exact hfrB (x.1 + d) (by omega)
  have hlenL : L.length < PAGE_SIZE := by
    have h := chain_sep_length L 14 hsep
      (fun x hx => ⟨by have := (hLb x hx).1; omega, (hLb x hx).2.2⟩)
      (fun x hx => by have := (hLb x hx).2.1; omega)
      (by omega)
    omega
  have hmain := delTail_spec (pop_key_at p i).2 o v hov hv4 ho14 L
    (firstFreeblock (pop_key_at p i).2) 7 none PAGE_SIZE
    hlenL hchain1
    (fun x hx => ⟨(hLb x hx).1,
      by have := (hLb x hx).2.1; omega,
      (hLb x hx).2.2⟩)
    hsep hdisj
    (by omega) rfl
    (Or.inl (by omega))
    (fun x hx => Or.inl (by have := (hLb x hx).2.1; omega))
    rfl
  obtain ⟨hA, hB, hC, _⟩ := hmain
  rw [hq]
  exact ⟨hA, hB, hC,
    insertFB_chain_lt o v hv4 L hsep (fun x hx => (hLb x hx).1) hdisj⟩

/-- Witness for C3: on c3pageB (freeblock chain [(4078, 8)], key 1's
value at offset 4086 with length 10), delete(1) links (4086, 10) behind
(4078, 8): the chain becomes first_freeblock = 4078 → 4086 → 0 with sizes
8 and 10, and the new block's next field is 0. -/
theorem c3_delete_links_freeblock_witness :
    isChain (delete c3pageB 1).1 (firstFreeblock (delete c3pageB 1).1)
        (insertFB (4086, 10) [(4078, 8)]) ∧
      readU16 (delete c3pageB 1).1 (4086 + 2) = 10 ∧
      readU16 (delete c3pageB 1).1 4086 = succOffset 4086 [(4078, 8)] ∧
      List.Chain' (fun a b : Nat × Nat => a.1 < b.1)
        (insertFB (4086, 10) [(4078, 8)]) := by
  have h := c3_delete_links_freeblock c3pageB 1 0 [(4078, 8)]
    (by
      have h2 : ∀ a, a < 1 → keyAt c3pageB a < keyAt c3pageB (a + 1) := by
        decide
      have hn : numKeys c3pageB = 2 := by decide
      intro a ha
      rw [hn] at ha
      exact h2 a (by omega))
    (by decide) (by decide) (by decide) (by decide) (by decide) (by decide)
    (by decide) (by decide) (by decide) (by decide)
    (List.chain'_singleton _) (by decide)
  exact h

end EBin
